import Mathlib

/-!
Shallow embedding of the FM-index alignment core of the
`CMSC244_Aln_Algo_for_RNA-seq` repository
(`test_modules/Utility_Functions/shared_utils.py`,
`test_modules/Aln_Algorithm_Functions/hisat_alignment.py`,
`test_modules/Aln_Algorithm_Functions/bowtie_alignment.py`),
together with proofs about the embedded code.

Python strings are modelled as `List Char` (Python compares characters by
code point, as Lean's `Char` order does); Python `int` values that can be
negative are modelled as `Int`, non-negative counters and indices as `Nat`.
The Python sentinel return value `(-1, -1)` of `FM_backward_search` is
modelled as `none : Option (Nat × Nat)`; a successful range `(top, bottom)`
as `some (top, bottom)`.
-/

namespace RnaAln

/-- Stable insertion into a sorted list: `x` is placed before the first
element `y` with `le x y`, so elements equivalent to `x` that are already
present stay in front of it. -/
def pyInsert (le : α → α → Bool) (x : α) : List α → List α
  | [] => [x]
  | y :: ys => if le x y then x :: y :: ys else y :: pyInsert le x ys

/-- Stable sort by the boolean preorder `le`.  Python's `list.sort` /
`sorted` are stable sorts, and for a fixed total preorder all stable
sorts of a list agree, so this models them exactly. -/
def pySort (le : α → α → Bool) : List α → List α
  | [] => []
  | x :: xs => pyInsert le x (pySort le xs)

/-- Strict lexicographic comparison on `List Char`, the order used by
Python's string `<` (and hence by `list.sort` on suffix strings). -/
def ltStr : List Char → List Char → Bool
  | [], [] => false
  | [], _ :: _ => true
  | _ :: _, [] => false
  | a :: as, b :: bs => if a < b then true else if b < a then false else ltStr as bs

/-- Non-strict lexicographic comparison, `s ≤ t` as `¬ t < s`. -/
def leStr (s t : List Char) : Bool := !(ltStr t s)

/-- `build_suffix_array` from `shared_utils.py` (lines 27-37): collect all
suffixes of `text` with their start offsets and sort them by the suffix
string.  Python's sort is stable, and distinct suffixes of one string are
never equal (they have different lengths), so the stable `pySort` by the
suffix order produces exactly the Python result. -/
def build_suffix_array (text : List Char) : List Nat :=
  pySort (fun i j => leStr (text.drop i) (text.drop j)) (List.range text.length)

/-- `build_BWT` from `shared_utils.py` (lines 40-50): for each row `i`,
emit the character just before suffix `suffix_array[i]`, wrapping to the
last character when `suffix_array[i] = 0`. -/
def build_BWT (text : List Char) (suffix_array : List Nat) : List Char :=
  (List.range text.length).map (fun i =>
    let sa_index := suffix_array.getD i 0
    if sa_index = 0 then text.getD (text.length - 1) 'x'
    else text.getD (sa_index - 1) 'x')

/-- `build_count_table` from `shared_utils.py` (lines 56-70), as a lookup
function.  The Python dict has one key per distinct character of `bwt`
(modelled by the `none` branch), and maps each such character to the
cumulative count of strictly smaller characters of `bwt`. -/
def build_count_table (bwt : List Char) : Char → Option Nat := fun c =>
  if c ∈ bwt then some ((bwt.filter (fun d => d < c)).length) else none

/-- `build_occurrence_table` from `shared_utils.py` (lines 73-90), as a
lookup function: `occ c k` is the number of occurrences of `c` in
`bwt[0..k)`.  The Python dict only has keys for characters occurring in
`bwt`; callers only consult it for characters that passed the
`count_table` membership test, where this function agrees with the dict. -/
def build_occurrence_table (bwt : List Char) : Char → Nat → Nat := fun c k =>
  ((bwt.take k).filter (fun d => d = c)).length

/-- The loop of `FM_backward_search` (`shared_utils.py` lines 98-106),
processing the remaining pattern characters (already reversed, so the
rightmost pattern character comes first).  Returns `none` for the Python
early exits `return -1, -1`. -/
def FM_search_loop (count_table : Char → Option Nat) (occ : Char → Nat → Nat) :
    List Char → Nat → Nat → Option (Nat × Nat)
  | [], top, bottom => some (top, bottom)
  | c :: rest, top, bottom =>
    match count_table c with
    | none => none
    | some cv =>
      let top2 := cv + (if 0 < top then occ c top else 0)
      let bottom2 := cv + occ c bottom
      if bottom2 ≤ top2 then none
      else FM_search_loop count_table occ rest top2 bottom2

/-- `FM_backward_search` from `shared_utils.py` (lines 93-106): scan the
pattern from its last character to its first, starting from the full range
`(0, bwt_len)`. -/
def FM_backward_search (pattern : List Char) (count_table : Char → Option Nat)
    (occ : Char → Nat → Nat) (bwt_len : Nat) : Option (Nat × Nat) :=
  FM_search_loop count_table occ pattern.reverse 0 bwt_len

/-- `locate_pattern` from `hisat_alignment.py` (lines 29-39): run backward
search over the index, return `[]` on the sentinel result or an empty
range, otherwise the sorted list of suffix-array entries in
`[top, bottom)`.  (`find_pattern` in `bowtie_alignment.py` lines 28-39 is
a line-for-line copy of this function.) -/
def locate_pattern (pattern : List Char) (suffix_array : List Nat)
    (count_table : Char → Option Nat) (occ : Char → Nat → Nat) : List Nat :=
  match FM_backward_search pattern count_table occ suffix_array.length with
  | none => []
  | some (top, bottom) =>
    if bottom ≤ top then []
    else pySort (fun a b => Nat.ble a b)
      ((List.range' top (bottom - top)).map (fun i => suffix_array.getD i 0))

/-- `find_pattern` from `bowtie_alignment.py` (lines 28-39); its body is
identical to `locate_pattern`. -/
def find_pattern (pattern : List Char) (suffix_array : List Nat)
    (count_table : Char → Option Nat) (occ : Char → Nat → Nat) : List Nat :=
  locate_pattern pattern suffix_array count_table occ

/-- `count_mismatches` from `hisat_alignment.py` (lines 46-54): positional
comparison over the common length of the two sequences. -/
def count_mismatches (seq1 seq2 : List Char) : Nat :=
  ((List.range (min seq1.length seq2.length)).filter
    (fun position => seq1.getD position 'x' ≠ seq2.getD position 'x')).length

/-- Alignment record produced by the HISAT-style aligner
(`hisat_alignment.py`): a Python dict with keys `position`, `cigar`,
`mismatches`, `score`, `spliced`, and (only on the spliced path)
`intron_start` / `intron_end`. -/
structure HisatRecord where
  position : Int
  cigar : String
  mismatches : Nat
  score : Int
  spliced : Bool
  intron_start : Option Nat := none
  intron_end : Option Nat := none
deriving DecidableEq

/-- The Python expression `list(range(0, read_len - seed_len + 1, seed_len))`
from `hisat_alignment.py` line 66, for `seed_len > 0`: the empty list when
`read_len < seed_len` (the Python stop bound is then non-positive),
otherwise the multiples of `seed_len` up to `read_len - seed_len`. -/
def seed_starts (read_len seed_len : Nat) : List Nat :=
  if read_len < seed_len then []
  else (List.range ((read_len - seed_len) / seed_len + 1)).map (fun k => k * seed_len)

/-- The body of the inner loop of `seed_and_extend`
(`hisat_alignment.py` lines 72-90) for one `hit_position`.  The state is
the pair of the `checked_positions` key list and the accumulated
`alignments` list. -/
def seed_extend_hit (read reference : List Char) (max_mismatches : Nat)
    (seed_offset : Nat) (st : List Int × List HisatRecord) (hit_position : Nat) :
    List Int × List HisatRecord :=
  let read_start : Int := (hit_position : Int) - (seed_offset : Int)
  if read_start < 0 ∨ (reference.length : Int) < read_start + read.length then st
  else if read_start ∈ st.1 then st
  else
    let ref_segment := (reference.drop read_start.toNat).take read.length
    let mismatch_count := count_mismatches read ref_segment
    (read_start :: st.1,
      if mismatch_count ≤ max_mismatches then
        st.2 ++ [{ position := read_start
                   cigar := toString read.length ++ "M"
                   mismatches := mismatch_count
                   score := (read.length : Int) - (mismatch_count : Int)
                   spliced := false }]
      else st.2)

/-- `seed_and_extend` from `hisat_alignment.py` (lines 57-91): choose the
seed length `max(8, read_len // (max_mismatches + 1))`, take
non-overlapping seeds starting at offset 0, look each seed up in the
index, and verify every implied (deduplicated, in-bounds) read start by
direct mismatch counting. -/
def seed_and_extend (read reference : List Char) (suffix_array : List Nat)
    (count_table : Char → Option Nat) (occ : Char → Nat → Nat)
    (max_mismatches : Nat) : List HisatRecord :=
  let seed_len := max 8 (read.length / (max_mismatches + 1))
  ((seed_starts read.length seed_len).foldl (fun st seed_offset =>
      let seed := (read.drop seed_offset).take seed_len
      (locate_pattern seed suffix_array count_table occ).foldl
        (seed_extend_hit read reference max_mismatches seed_offset) st)
    ([], [])).2

/-- `check_canonical_splice_site` from `hisat_alignment.py` (lines 97-105). -/
def check_canonical_splice_site (reference : List Char)
    (donor_position acceptor_position : Nat) : Bool :=
  if reference.length < donor_position + 2 ∨ acceptor_position < 2 then false
  else
    decide ((reference.drop donor_position).take 2 = ['G', 'T']) &&
    decide ((reference.drop (acceptor_position - 2)).take 2 = ['A', 'G'])

/-- `spliced_alignment` from `hisat_alignment.py` (lines 108-142): for
every split point in `[min_anchor, read_len - min_anchor)`, look up both
read halves exactly, and keep every left/right hit combination whose
implied gap length lies in `[min_intron, max_intron]` and whose reference
flanks carry the canonical `GT`/`AG` motifs.  The nested Python `for`
loops appending to `alignments` are modelled by nested `List.bind` /
`List.filterMap`, which concatenate results in the same order. -/
def spliced_alignment (read reference : List Char) (suffix_array : List Nat)
    (count_table : Char → Option Nat) (occ : Char → Nat → Nat) : List HisatRecord :=
  let read_len := read.length
  let min_anchor := 8
  let max_intron := 500000
  let min_intron := 50
  (List.range' min_anchor (read_len - min_anchor - min_anchor)).flatMap
    (fun split_position =>
      let left_segment := read.take split_position
      let right_segment := read.drop split_position
      let left_positions := locate_pattern left_segment suffix_array count_table occ
      let right_positions := locate_pattern right_segment suffix_array count_table occ
      left_positions.flatMap (fun left_pos =>
        let left_end := left_pos + left_segment.length
        right_positions.filterMap (fun (right_pos : Nat) =>
          let intron_length : Int := (right_pos : Int) - (left_end : Int)
          if (min_intron : Int) ≤ intron_length ∧ intron_length ≤ (max_intron : Int) then
            if check_canonical_splice_site reference left_end right_pos then
              some { position := (left_pos : Int)
                     cigar := toString left_segment.length ++ "M" ++
                       toString intron_length ++ "N" ++
                       toString right_segment.length ++ "M"
                     mismatches := 0
                     score := (read_len : Int)
                     spliced := true
                     intron_start := some left_end
                     intron_end := some right_pos }
            else none
          else none)))

/-- `hisat_align` from `hisat_alignment.py` (lines 148-182): build the
FM-index over the sentinel-terminated reference, then run the tiered
pipeline exact → tolerant → spliced, and sort the surviving records by
descending score (Python's stable sort with `reverse=True`, i.e. the
stable `pySort` by `≥` on scores). -/
def hisat_align (read reference : List Char) (max_mismatches : Nat) : List HisatRecord :=
  let ref_with_term := reference ++ ['$']
  let suffix_array := build_suffix_array ref_with_term
  let bwt := build_BWT ref_with_term suffix_array
  let count_table := build_count_table bwt
  let occurence := build_occurrence_table bwt
  let exact_positions := locate_pattern read suffix_array count_table occurence
  let alignments := exact_positions.map (fun position =>
    ({ position := (position : Int)
       cigar := toString read.length ++ "M"
       mismatches := 0
       score := (read.length : Int)
       spliced := false } : HisatRecord))
  let alignments := if alignments.length = 0 then
      seed_and_extend read reference suffix_array count_table occurence max_mismatches
    else alignments
  let alignments := if alignments.length = 0 then
      spliced_alignment read reference suffix_array count_table occurence
    else alignments
  pySort (fun a b => decide (b.score ≤ a.score)) alignments

/-- The loop of `compress_cigar` (`bowtie_alignment.py` lines 54-64):
`current_op` / `count` hold the run in progress, the remaining operations
are consumed one at a time. -/
def compress_runs : List Char → Char → Nat → String
  | [], current_op, count => toString count ++ String.mk [current_op]
  | op :: rest, current_op, count =>
    if op = current_op then compress_runs rest current_op (count + 1)
    else (toString count ++ String.mk [current_op]) ++ compress_runs rest op 1

/-- `compress_cigar` from `bowtie_alignment.py` (lines 47-64): run-length
compress a list of single-character edit operations into a CIGAR string;
the empty list yields the empty string. -/
def compress_cigar : List Char → String
  | [] => ""
  | op :: rest => compress_runs rest op 1

/-- Expansion of a CIGAR string back into its operation list (the inverse
direction of `compress_cigar`, used by the spec's round-trip property):
read maximal digit runs as decimal counts, and replicate each following
operation character accordingly. -/
def expand_cigar_aux : List Char → Nat → List Char
  | [], _ => []
  | c :: rest, acc =>
    if c.isDigit then expand_cigar_aux rest (acc * 10 + (c.toNat - 48))
    else List.replicate acc c ++ expand_cigar_aux rest 0

/-- Expansion of a CIGAR string into its operation list. -/
def expand_cigar (s : String) : List Char :=
  expand_cigar_aux s.data 0

/-- One row of the Smith-Waterman fill loop (`bowtie_alignment.py`
lines 84-100) for query character `q_c`: `targets` are the remaining
target characters of the row, `prev` is the previous score row from
column `col - 1` onwards, and `last_cur` is the value just written at
`(row, col - 1)`.  Returns the score row and the traceback row from
column 1 on (traceback codes as in the source: 1 = diagonal,
3 = gap from above, 2 = gap from the left, 0 = reset). -/
def sw_fill_row (match_score mismatch_penalty gap_extend : Int) (q_c : Char) :
    List Char → List Int → Int → List Int × List Nat
  | [], _, _ => ([], [])
  | _ :: _, [], _ => ([], [])
  | t_c :: ts, p0 :: prest, last_cur =>
    let mvalue := p0 + (if q_c = t_c then match_score else mismatch_penalty)
    let dvalue := prest.headD 0 + gap_extend
    let ivalue := last_cur + gap_extend
    let v := max 0 (max mvalue (max dvalue ivalue))
    let tb : Nat := if v = mvalue then 1 else if v = dvalue then 3
      else if v = ivalue then 2 else 0
    let rest := sw_fill_row match_score mismatch_penalty gap_extend q_c ts prest v
    (v :: rest.1, tb :: rest.2)

/-- The row-by-row Smith-Waterman fill (`bowtie_alignment.py` lines
84-100): build one score row and one traceback row per query character,
each prefixed by the boundary value 0 at column 0. -/
def sw_fill (match_score mismatch_penalty gap_extend : Int) (target : List Char) :
    List Char → List Int → List (List Int) × List (List Nat)
  | [], _ => ([], [])
  | q_c :: qs, prev =>
    let row := sw_fill_row match_score mismatch_penalty gap_extend q_c target prev 0
    let score_row : List Int := 0 :: row.1
    let tb_row : List Nat := 0 :: row.2
    let rest := sw_fill match_score mismatch_penalty gap_extend target qs score_row
    (score_row :: rest.1, tb_row :: rest.2)

/-- The full `(query_len + 1) × (target_len + 1)` Smith-Waterman score and
traceback matrices of `smith_waterman` (`bowtie_alignment.py` lines
74-100), with the all-zero boundary row 0. -/
def sw_matrices (query target : List Char) (match_score mismatch_penalty gap_extend : Int) :
    List (List Int) × List (List Nat) :=
  let row0 : List Int := List.replicate (target.length + 1) 0
  let tb0 : List Nat := List.replicate (target.length + 1) 0
  let rest := sw_fill match_score mismatch_penalty gap_extend target query row0
  (row0 :: rest.1, tb0 :: rest.2)

/-- Scan one score row for the running maximum, updating only on a strict
increase, exactly like `if score_matrix[row][col] > max_score` in the
source. -/
def sw_scan_row (row_index : Nat) : List Int → Nat → Int × Nat × Nat → Int × Nat × Nat
  | [], _, best => best
  | v :: vs, col, best =>
    sw_scan_row row_index vs (col + 1) (if best.1 < v then (v, row_index, col) else best)

/-- Row-major scan of the score matrix for `(max_score, max_row, max_col)`
(`bowtie_alignment.py` lines 82, 99-100).  The source updates the maximum
while filling; scanning the finished matrix in the same row-major order
with the same strict comparison yields the identical triple (the extra
boundary cells scanned here are all 0 and never beat the initial 0). -/
def sw_scan : List (List Int) → Nat → Int × Nat × Nat → Int × Nat × Nat
  | [], _, best => best
  | r :: rs, row_index, best => sw_scan rs (row_index + 1) (sw_scan_row row_index r 0 best)

/-- The traceback walk of `smith_waterman` (`bowtie_alignment.py` lines
102-116): step backwards from the maximum cell along the recorded choices
while the cell value is positive, emitting `M` / `I` / `D`, and report the
final row and column.  The emitted list is in walk order; the source
reverses it afterwards. -/
def sw_walk (score_matrix : List (List Int)) (traceback : List (List Nat))
    (row col : Nat) : List Char × Nat × Nat :=
  if h : 0 < row ∧ 0 < col ∧ 0 < (score_matrix.getD row []).getD col 0 then
    let t := (traceback.getD row []).getD col 0
    if t = 1 then
      let r := sw_walk score_matrix traceback (row - 1) (col - 1)
      ('M' :: r.1, r.2)
    else if t = 3 then
      let r := sw_walk score_matrix traceback (row - 1) col
      ('I' :: r.1, r.2)
    else if t = 2 then
      let r := sw_walk score_matrix traceback row (col - 1)
      ('D' :: r.1, r.2)
    else ([], row, col)
  else ([], row, col)
termination_by row + col
decreasing_by
  · omega
  · omega
  · omega

/-- `smith_waterman` from `bowtie_alignment.py` (lines 70-118): fill the
matrices, locate the maximum, walk the traceback, and return
`(max_score, compressed CIGAR, final row, final col)`. -/
def smith_waterman (query target : List Char)
    (match_score mismatch_penalty gap_extend : Int) : Int × String × Nat × Nat :=
  let mats := sw_matrices query target match_score mismatch_penalty gap_extend
  let best := sw_scan mats.1 0 (0, 0, 0)
  let walk := sw_walk mats.1 mats.2 best.2.1 best.2.2
  (best.1, compress_cigar walk.1.reverse, walk.2.1, walk.2.2)

/-- `extract_seeds` from `bowtie_alignment.py` (lines 124-133): substrings
of length `seed_len` at offsets `0, seed_interval, 2 * seed_interval, …`
while `offset ≤ read_len - seed_len`.  This models the Python `while`
loop for a positive `seed_interval` (the callers use stride 15); the stop
bound `len(read) - seed_len` is a Python integer, so a seed length larger
than the read yields the empty list. -/
def extract_seeds (read : List Char) (seed_len seed_interval : Nat) :
    List (List Char × Nat) :=
  if read.length < seed_len then []
  else (List.range ((read.length - seed_len) / seed_interval + 1)).map
    (fun k => ((read.drop (k * seed_interval)).take seed_len, k * seed_interval))

/-- Alignment record produced by `bowtie2_align` before MAPQ assignment: a
Python dict with keys `position`, `cigar`, `score`. -/
structure BowtieRecord where
  position : Int
  cigar : String
  score : Int
deriving DecidableEq

/-- `bowtie2_align` from `bowtie_alignment.py` (lines 139-180): build the
FM-index over the sentinel-terminated reference, extract seeds, project
seed hits to deduplicated in-bounds candidate read starts, extend each
candidate with Smith-Waterman (match 2, mismatch -4, gap -1) over a
window of `read_len + 20` reference symbols, keep positive scores, sort
by descending score (stable), and pair each record with its assigned MAPQ
(`min(60, score)` at rank 0, `max(0, 60 - 10 * rank)` afterwards).  The
Python code stores the MAPQ as an extra dict key; the model returns it as
the second pair component. -/
def bowtie2_align (read reference : List Char) (seed_len seed_interval : Nat) :
    List (BowtieRecord × Int) :=
  let ref_with_term := reference ++ ['$']
  let suffix_array := build_suffix_array ref_with_term
  let bwt := build_BWT ref_with_term suffix_array
  let count_table := build_count_table bwt
  let occurrence := build_occurrence_table bwt
  let seeds := extract_seeds read seed_len seed_interval
  let candidate_positions := seeds.foldl (fun cands sp =>
    (find_pattern sp.1 suffix_array count_table occurrence).foldl
      (fun (cands : List Int) position =>
        let read_start : Int := (position : Int) - (sp.2 : Int)
        if 0 ≤ read_start ∧ read_start ≤ (reference.length : Int) - (read.length : Int) then
          if read_start ∈ cands then cands else cands ++ [read_start]
        else cands) cands) []
  let alignments := candidate_positions.foldl (fun (alns : List BowtieRecord) position =>
    let ref_region := (reference.drop position.toNat).take (read.length + 20)
    let res := smith_waterman read ref_region 2 (-4) (-1)
    if 0 < res.1 then
      alns ++ [{ position := position + (res.2.2.2 : Int)
                 cigar := res.2.1
                 score := res.1 }]
    else alns) []
  let sorted := pySort (fun a b => decide (b.score ≤ a.score)) alignments
  sorted.enum.map (fun p =>
    (p.2, if p.1 = 0 then min 60 p.2.score else max 0 (60 - 10 * (p.1 : Int))))

/-- `pattern` occurs in `t` starting at `q`: `q` is a position of `t` and
`pattern` is a prefix of the suffix of `t` starting at `q`. -/
def occursAt (t pattern : List Char) (q : Nat) : Prop :=
  q < t.length ∧ pattern <+: t.drop q

instance (t pattern : List Char) (q : Nat) : Decidable (occursAt t pattern q) := by
  unfold occursAt
  exact inferInstance

/-- Number of positions of `t` whose suffix is lexicographically smaller
than `p` (a characterization device for the backward-search proofs). -/
def ltCount (t p : List Char) : Nat :=
  (List.range t.length).countP (fun q => ltStr (t.drop q) p)

/-- Number of positions of `t` whose suffix is smaller than `p` or has
`p` as a prefix. -/
def upCount (t p : List Char) : Nat :=
  (List.range t.length).countP
    (fun q => ltStr (t.drop q) p || decide (p <+: t.drop q))

/-- Number of occurrence positions of `p` in `t`. -/
def occCount (t p : List Char) : Nat :=
  (List.range t.length).countP (fun q => decide (p <+: t.drop q))

/-! ### Lemmas about the stable sort -/

theorem pyInsert_perm (le : α → α → Bool) (x : α) :
    ∀ l : List α, List.Perm (pyInsert le x l) (x :: l)
  | [] => List.Perm.refl _
  | y :: ys => by
    simp only [pyInsert]
    by_cases h : le x y = true
    · rw [if_pos h]
    · rw [if_neg h]
      exact ((pyInsert_perm le x ys).cons y).trans (List.Perm.swap x y ys)

theorem pySort_perm (le : α → α → Bool) : ∀ l : List α, List.Perm (pySort le l) l
  | [] => List.Perm.refl _
  | x :: xs => (pyInsert_perm le x (pySort le xs)).trans ((pySort_perm le xs).cons x)

theorem mem_pySort (le : α → α → Bool) {l : List α} {a : α} :
    a ∈ pySort le l ↔ a ∈ l :=
  (pySort_perm le l).mem_iff

theorem pySort_length (le : α → α → Bool) (l : List α) :
    (pySort le l).length = l.length :=
  (pySort_perm le l).length_eq

theorem pyInsert_pairwise (le : α → α → Bool)
    (total : ∀ a b, le a b = true ∨ le b a = true)
    (trns : ∀ a b c, le a b = true → le b c = true → le a c = true) (x : α) :
    ∀ {l : List α}, l.Pairwise (fun a b => le a b = true) →
      (pyInsert le x l).Pairwise (fun a b => le a b = true)
  | [], _ => List.pairwise_singleton _ _
  | y :: ys, h => by
    rw [List.pairwise_cons] at h
    simp only [pyInsert]
    by_cases hxy : le x y = true
    · rw [if_pos hxy]
      refine List.Pairwise.cons ?_ (List.Pairwise.cons h.1 h.2)
      intro z hz
      rcases List.mem_cons.1 hz with rfl | hz
      · exact hxy
      · exact trns x y z hxy (h.1 z hz)
    · rw [if_neg hxy]
      refine List.Pairwise.cons ?_ (pyInsert_pairwise le total trns x h.2)
      intro z hz
      rcases List.mem_cons.1 ((pyInsert_perm le x ys).mem_iff.1 hz) with hzx | hz
      · subst hzx
        rcases total z y with h' | h'
        · exact absurd h' hxy
        · exact h'
      · exact h.1 z hz

theorem pySort_pairwise (le : α → α → Bool)
    (total : ∀ a b, le a b = true ∨ le b a = true)
    (trns : ∀ a b c, le a b = true → le b c = true → le a c = true) :
    ∀ l : List α, (pySort le l).Pairwise (fun a b => le a b = true)
  | [] => List.Pairwise.nil
  | x :: xs => pyInsert_pairwise le total trns x (pySort_pairwise le total trns xs)

/-! ### Lemmas about the lexicographic comparison -/

/-- `ltStr` agrees with the standard lexicographic strict order on
`List Char`. -/
theorem ltStr_iff_lex :
    ∀ {s t : List Char}, ltStr s t = true ↔ List.Lex (· < ·) s t
  | [], [] => by
    simp only [ltStr, Bool.false_eq_true, false_iff]
    exact fun h => by cases h
  | [], _ :: _ => by
    simp only [ltStr, true_iff]
    exact List.Lex.nil
  | _ :: _, [] => by
    simp only [ltStr, Bool.false_eq_true, false_iff]
    exact fun h => by cases h
  | a :: as, b :: bs => by
    simp only [ltStr]
    by_cases hab : a < b
    · simp only [hab, if_true, true_iff]
      exact List.Lex.rel hab
    · by_cases hba : b < a
      · simp only [hab, hba, if_false, if_true, Bool.false_eq_true, false_iff]
        intro h
        cases h with
        | cons h => exact absurd hba (lt_irrefl a)
        | rel h => exact absurd h (asymm hba)
      · have hab2 : a = b := le_antisymm (le_of_not_lt hba) (le_of_not_lt hab)
        subst hab2
        simp only [lt_irrefl, if_false]
        constructor
        · intro h
          exact List.Lex.cons (ltStr_iff_lex.1 h)
        · intro h
          cases h with
          | cons h => exact ltStr_iff_lex.2 h
          | rel h => exact absurd h (lt_irrefl a)

theorem ltStr_irrefl (s : List Char) : ltStr s s = false := by
  cases h : ltStr s s
  · rfl
  · exact absurd (ltStr_iff_lex.1 h) (irrefl s)

theorem ltStr_trans {s t u : List Char} (h1 : ltStr s t = true)
    (h2 : ltStr t u = true) : ltStr s u = true :=
  ltStr_iff_lex.2 (IsTrans.trans _ _ _ (ltStr_iff_lex.1 h1) (ltStr_iff_lex.1 h2))

theorem ltStr_asymm {s t : List Char} (h : ltStr s t = true) : ltStr t s = false := by
  cases h' : ltStr t s
  · rfl
  · exact absurd (ltStr_iff_lex.1 h') (IsAsymm.asymm _ _ (ltStr_iff_lex.1 h))

theorem ltStr_connex {s t : List Char} (h1 : ltStr s t = false)
    (h2 : ltStr t s = false) : s = t := by
  rcases @IsTrichotomous.trichotomous (List Char) (List.Lex (· < ·)) _ s t with h | h | h
  · exact absurd (ltStr_iff_lex.2 h) (by simp [h1])
  · exact h
  · exact absurd (ltStr_iff_lex.2 h) (by simp [h2])

theorem leStr_total (s t : List Char) : leStr s t = true ∨ leStr t s = true := by
  unfold leStr
  cases h : ltStr t s
  · left; rfl
  · right
    rw [ltStr_asymm h]
    rfl

theorem leStr_trans {s t u : List Char} (h1 : leStr s t = true)
    (h2 : leStr t u = true) : leStr s u = true := by
  unfold leStr at h1 h2 ⊢
  rw [Bool.not_eq_true'] at h1 h2 ⊢
  cases hus : ltStr u s
  · rfl
  · exfalso
    have lus := ltStr_iff_lex.1 hus
    rcases @IsTrichotomous.trichotomous (List Char) (List.Lex (· < ·)) _ t u with h | h | h
    · exact absurd (ltStr_iff_lex.2 (IsTrans.trans _ _ _ h lus)) (by simp [h1])
    · subst h
      exact absurd (ltStr_iff_lex.2 lus) (by simp [h1])
    · exact absurd (ltStr_iff_lex.2 h) (by simp [h2])

/-! ### CIGAR compression round-trip (claim C8) -/

theorem digitChar_isDigit {d : Nat} (h : d < 10) : (Nat.digitChar d).isDigit = true := by
  interval_cases d <;> decide

theorem digitChar_toNat {d : Nat} (h : d < 10) : (Nat.digitChar d).toNat - 48 = d := by
  interval_cases d <;> decide

/-- Core fact about Lean's decimal printer: `Nat.toDigitsCore 10 fuel n ds`
(with enough fuel) prepends a non-empty block of digit characters to `ds`,
and `expand_cigar_aux` consumes exactly that block, adding `n` to the
scaled accumulator. -/
theorem toDigitsCore_spec :
    ∀ (fuel n : Nat) (ds : List Char), n < fuel →
      ∃ pre : List Char,
        Nat.toDigitsCore 10 fuel n ds = pre ++ ds ∧ pre ≠ [] ∧
          (∀ l : List Char, ∀ acc : Nat,
            expand_cigar_aux (pre ++ l) acc = expand_cigar_aux l (acc * 10 ^ pre.length + n))
  | 0, n, ds, h => absurd h (Nat.not_lt_zero n)
  | fuel + 1, n, ds, h => by
    rw [Nat.toDigitsCore]
    by_cases h10 : n / 10 = 0
    · rw [if_pos h10]
      refine ⟨[Nat.digitChar (n % 10)], rfl, by simp, ?_⟩
      intro l acc
      have hd : n % 10 < 10 := Nat.mod_lt n (by omega)
      simp only [List.cons_append, List.nil_append, expand_cigar_aux,
        digitChar_isDigit hd, if_pos, List.length_cons, List.length_nil]
      rw [digitChar_toNat hd]
      have : n % 10 = n := by omega
      rw [this]
      norm_num
    · rw [if_neg h10]
      have hlt : n / 10 < fuel := by
        have h1 : n / 10 < n := Nat.div_lt_self (by omega) (by omega)
        omega
      obtain ⟨pre, hpre, hne, hparse⟩ :=
        toDigitsCore_spec fuel (n / 10) (Nat.digitChar (n % 10) :: ds) hlt
      refine ⟨pre ++ [Nat.digitChar (n % 10)], by rw [hpre]; simp, by simp [hne], ?_⟩
      intro l acc
      have hd : n % 10 < 10 := Nat.mod_lt n (by omega)
      rw [List.append_assoc, List.singleton_append, hparse (Nat.digitChar (n % 10) :: l) acc]
      simp only [expand_cigar_aux, digitChar_isDigit hd, if_pos, List.length_append,
        List.length_cons, List.length_nil]
      rw [digitChar_toNat hd]
      congr 1
      have hmod : n / 10 * 10 + n % 10 = n := by omega
      have : 10 ^ (pre.length + (0 + 1)) = 10 ^ pre.length * 10 := by ring
      rw [this]
      calc (acc * 10 ^ pre.length + n / 10) * 10 + (n % 10)
          = acc * (10 ^ pre.length * 10) + (n / 10 * 10 + n % 10) := by ring
        _ = acc * (10 ^ pre.length * 10) + n := by rw [hmod]

/-- `expand_cigar_aux` consumes the decimal digits of `n` (as printed by
`toString`) followed by the rest of the input, turning the digits into the
accumulator value `n`. -/
theorem expand_repr (n : Nat) (l : List Char) :
    expand_cigar_aux ((toString n).data ++ l) 0 = expand_cigar_aux l n := by
  obtain ⟨pre, hpre, _, hparse⟩ := toDigitsCore_spec (n + 1) n [] (Nat.lt_succ_self n)
  have hdata : (toString n).data = pre := by
    show (Nat.toDigits 10 n) = pre
    rw [Nat.toDigits, hpre, List.append_nil]
  rw [hdata, hparse l 0]
  norm_num

/-- Expanding the string built by `compress_runs ops cur cnt` recovers
`cnt` copies of `cur` followed by the expansion of the remaining
operations, provided no operation character is a decimal digit. -/
theorem expand_compress_runs :
    ∀ (ops : List Char) (cur : Char) (cnt : Nat), cur.isDigit = false →
      (∀ c ∈ ops, c.isDigit = false) →
      expand_cigar_aux (compress_runs ops cur cnt).data 0 =
        List.replicate cnt cur ++ ops
  | [], cur, cnt, hcur, _ => by
    show expand_cigar_aux (toString cnt ++ String.mk [cur]).data 0 = _
    rw [String.data_append, show (String.mk [cur]).data = [cur] from rfl,
      expand_repr cnt [cur]]
    simp [expand_cigar_aux, hcur]
  | op :: rest, cur, cnt, hcur, hops => by
    simp only [compress_runs]
    by_cases hop : op = cur
    · rw [if_pos hop]
      rw [expand_compress_runs rest cur (cnt + 1) hcur
        (fun c hc => hops c (List.mem_cons_of_mem op hc))]
      rw [List.replicate_succ', hop]
      simp
    · rw [if_neg hop]
      rw [String.data_append, String.data_append,
        show (String.mk [cur]).data = [cur] from rfl, List.append_assoc,
        List.singleton_append, expand_repr cnt _]
      simp only [expand_cigar_aux, hcur, Bool.false_eq_true, if_neg, not_false_iff]
      rw [expand_compress_runs rest op 1 (hops op (List.mem_cons_self op rest))
        (fun c hc => hops c (List.mem_cons_of_mem op hc))]
      simp [List.replicate]

/-- Expanding a compressed CIGAR recovers the original operation list, for
operation alphabets without digit characters (the CIGAR codes `M`, `I`,
`D`, `N`, `S` of the source). -/
theorem expand_compress_cigar (ops : List Char) (h : ∀ c ∈ ops, c.isDigit = false) :
    expand_cigar (compress_cigar ops) = ops := by
  cases ops with
  | nil => rfl
  | cons op rest =>
    show expand_cigar_aux (compress_runs rest op 1).data 0 = _
    rw [expand_compress_runs rest op 1 (h op (List.mem_cons_self op rest))
      (fun c hc => h c (List.mem_cons_of_mem op hc))]
    simp [List.replicate]

/-! ### Backward-search range invariant (claim C10) and missing-symbol
behaviour (claim C9) -/

theorem build_BWT_length (text : List Char) (sa : List Nat) :
    (build_BWT text sa).length = text.length := by
  simp [build_BWT]

theorem countP_disjoint_le (p q : α → Bool) :
    ∀ l : List α, (∀ x ∈ l, ¬(p x = true ∧ q x = true)) →
      l.countP p + l.countP q ≤ l.length
  | [], _ => le_refl 0
  | x :: xs, h => by
    have hx := h x (List.mem_cons_self x xs)
    have ih := countP_disjoint_le p q xs (fun y hy => h y (List.mem_cons_of_mem x hy))
    rw [List.countP_cons, List.countP_cons, List.length_cons]
    by_cases hp : p x = true <;> by_cases hq : q x = true <;>
      simp [hp, hq] at hx ⊢ <;> omega

/-- The cumulative count of a character plus any rank of that character
never exceeds the transformed-string length. -/
theorem count_table_add_occ_le (bwt : List Char) (c : Char) (k : Nat) :
    (bwt.filter (fun d => d < c)).length +
      build_occurrence_table bwt c k ≤ bwt.length := by
  unfold build_occurrence_table
  have h1 : ((bwt.take k).filter (fun d => d = c)).length ≤
      (bwt.filter (fun d => d = c)).length := by
    rw [← List.countP_eq_length_filter, ← List.countP_eq_length_filter]
    exact (List.take_sublist k bwt).countP_le _
  have h2 : (bwt.filter (fun d => d < c)).length +
      (bwt.filter (fun d => d = c)).length ≤ bwt.length := by
    rw [← List.countP_eq_length_filter, ← List.countP_eq_length_filter]
    exact countP_disjoint_le _ _ bwt (by
      intro x _ hx
      rw [decide_eq_true_iff] at hx
      exact absurd hx.1 (by rw [of_decide_eq_true hx.2]; exact lt_irrefl c))
  omega

/-- Unfolding the backward-search loop on a character missing from the
count table. -/
theorem FM_search_loop_cons_none (cT : Char → Option Nat) (occf : Char → Nat → Nat)
    {c : Char} (hc : cT c = none) (rest : List Char) (top bottom : Nat) :
    FM_search_loop cT occf (c :: rest) top bottom = none := by
  show (match cT c with
    | none => none
    | some cv =>
      if cv + occf c bottom ≤ cv + (if 0 < top then occf c top else 0) then none
      else FM_search_loop cT occf rest (cv + (if 0 < top then occf c top else 0))
        (cv + occf c bottom)) = none
  rw [hc]

/-- Unfolding the backward-search loop on a character present in the count
table. -/
theorem FM_search_loop_cons_some (cT : Char → Option Nat) (occf : Char → Nat → Nat)
    {c : Char} {cv : Nat} (hc : cT c = some cv) (rest : List Char) (top bottom : Nat) :
    FM_search_loop cT occf (c :: rest) top bottom =
      if cv + occf c bottom ≤ cv + (if 0 < top then occf c top else 0) then none
      else FM_search_loop cT occf rest (cv + (if 0 < top then occf c top else 0))
        (cv + occf c bottom) := by
  show (match cT c with
    | none => none
    | some cv =>
      if cv + occf c bottom ≤ cv + (if 0 < top then occf c top else 0) then none
      else FM_search_loop cT occf rest (cv + (if 0 < top then occf c top else 0))
        (cv + occf c bottom)) = _
  rw [hc]

/-- Range invariant of the backward-search loop over the real tables:
starting from a non-empty in-bounds range, the loop returns the sentinel
or a non-empty range bounded by the transformed-string length. -/
theorem FM_search_loop_inv (bwt : List Char) :
    ∀ (l : List Char) (top bottom : Nat), top < bottom → bottom ≤ bwt.length →
      FM_search_loop (build_count_table bwt) (build_occurrence_table bwt) l top bottom
          = none ∨
        ∃ t2 b2,
          FM_search_loop (build_count_table bwt) (build_occurrence_table bwt) l top bottom
              = some (t2, b2) ∧ t2 < b2 ∧ b2 ≤ bwt.length
  | [], top, bottom, h1, h2 => Or.inr ⟨top, bottom, rfl, h1, h2⟩
  | c :: rest, top, bottom, h1, h2 => by
    cases hc : build_count_table bwt c with
    | none =>
      exact Or.inl (FM_search_loop_cons_none _ _ hc rest top bottom)
    | some cv =>
      rw [FM_search_loop_cons_some (build_count_table bwt)
        (build_occurrence_table bwt) hc rest top bottom]
      have hcv : cv = (bwt.filter (fun d => d < c)).length := by
        unfold build_count_table at hc
        by_cases hmem : c ∈ bwt
        · rw [if_pos hmem] at hc
          exact (Option.some_inj.1 hc).symm
        · rw [if_neg hmem] at hc
          exact absurd hc (Option.noConfusion)
      by_cases hle : cv + build_occurrence_table bwt c bottom ≤
          cv + (if 0 < top then build_occurrence_table bwt c top else 0)
      · rw [if_pos hle]
        exact Or.inl rfl
      · rw [if_neg hle]
        have hb : cv + build_occurrence_table bwt c bottom ≤ bwt.length := by
          have h3 := count_table_add_occ_le bwt c bottom
          omega
        exact FM_search_loop_inv bwt rest
          (cv + (if 0 < top then build_occurrence_table bwt c top else 0))
          (cv + build_occurrence_table bwt c bottom) (by omega) hb

/-- A pattern containing a character outside the count table always drives
the backward-search loop to the sentinel result. -/
theorem FM_search_loop_missing (cT : Char → Option Nat) (occf : Char → Nat → Nat)
    (c : Char) (hnone : cT c = none) :
    ∀ (l : List Char) (top bottom : Nat), c ∈ l →
      FM_search_loop cT occf l top bottom = none
  | [], _, _, hmem => absurd hmem (List.not_mem_nil c)
  | c' :: rest, top, bottom, hmem => by
    show (match cT c' with
      | none => none
      | some cv => _) = none
    cases hc' : cT c' with
    | none => rfl
    | some cv =>
      simp only
      rcases List.mem_cons.1 hmem with rfl | hmem'
      · rw [hnone] at hc'
        exact absurd hc' (Option.noConfusion)
      · by_cases hstop : cv + occf c' bottom ≤
            cv + (if 0 < top then occf c' top else 0)
        · rw [if_pos hstop]
        · rw [if_neg hstop]
          exact FM_search_loop_missing cT occf c hnone rest _ _ hmem'

/-- **C10**: for every reference and pattern, `FM_backward_search` over
the FM-index of the sentinel-terminated reference returns either the
sentinel result (Python `(-1, -1)`, modelled as `none`) or a pair
`(top, bottom)` with `0 ≤ top < bottom ≤ n` where `n` is the terminated
length — never a non-sentinel empty or inverted range — and for the empty
pattern it returns the full range `(0, n)`. -/
theorem C10_search_range_invariant (r pattern : List Char) :
    (FM_backward_search pattern
          (build_count_table (build_BWT (r ++ ['$']) (build_suffix_array (r ++ ['$']))))
          (build_occurrence_table (build_BWT (r ++ ['$']) (build_suffix_array (r ++ ['$']))))
          (r ++ ['$']).length = none ∨
        ∃ top bottom,
          FM_backward_search pattern
              (build_count_table (build_BWT (r ++ ['$']) (build_suffix_array (r ++ ['$']))))
              (build_occurrence_table (build_BWT (r ++ ['$']) (build_suffix_array (r ++ ['$']))))
              (r ++ ['$']).length = some (top, bottom) ∧
            top < bottom ∧ bottom ≤ (r ++ ['$']).length) ∧
      FM_backward_search []
          (build_count_table (build_BWT (r ++ ['$']) (build_suffix_array (r ++ ['$']))))
          (build_occurrence_table (build_BWT (r ++ ['$']) (build_suffix_array (r ++ ['$']))))
          (r ++ ['$']).length = some (0, (r ++ ['$']).length) := by
  constructor
  · have hlen : (build_BWT (r ++ ['$']) (build_suffix_array (r ++ ['$']))).length =
        (r ++ ['$']).length := build_BWT_length _ _
    have h0 : 0 < (r ++ ['$']).length := by simp
    have := FM_search_loop_inv (build_BWT (r ++ ['$']) (build_suffix_array (r ++ ['$'])))
      pattern.reverse 0 (r ++ ['$']).length h0 (le_of_eq hlen.symm)
    rcases this with h | ⟨t2, b2, heq, hlt, hle⟩
    · exact Or.inl h
    · exact Or.inr ⟨t2, b2, heq, hlt, hle.trans (le_of_eq hlen)⟩
  · rfl

/-- **C9**: a query containing a symbol absent from the index alphabet
(that is, a character that is not a key of the count table, equivalently
not a character of the transformed string) makes backward search return
the sentinel no-match result, and both pattern-locating wrappers return
the empty position list, with no failure; and a seed length exceeding the
read length makes `extract_seeds` return the empty seed list and makes
`seed_and_extend` (whose internal seed length is
`max 8 (read_len / (K + 1))`) return the empty alignment list. -/
theorem C9_missing_symbol_and_degenerate_seeds
    (pattern bwt : List Char) (sa : List Nat) (occf : Char → Nat → Nat) (c : Char)
    (hc : c ∈ pattern) (habs : c ∉ bwt)
    (read reference : List Char) (L I K : Nat) (hL : read.length < L)
    (hK : read.length < max 8 (read.length / (K + 1))) :
    FM_backward_search pattern (build_count_table bwt) occf sa.length = none ∧
      locate_pattern pattern sa (build_count_table bwt) occf = [] ∧
      find_pattern pattern sa (build_count_table bwt) occf = [] ∧
      extract_seeds read L I = [] ∧
      seed_and_extend read reference sa (build_count_table bwt) occf K = [] := by
  have hnone : build_count_table bwt c = none := by
    unfold build_count_table
    rw [if_neg habs]
  have hsearch : ∀ n, FM_backward_search pattern (build_count_table bwt) occf n = none := by
    intro n
    exact FM_search_loop_missing (build_count_table bwt) occf c hnone pattern.reverse 0 n
      (List.mem_reverse.2 hc)
  refine ⟨hsearch sa.length, ?_, ?_, ?_, ?_⟩
  · unfold locate_pattern
    rw [hsearch sa.length]
  · unfold find_pattern locate_pattern
    rw [hsearch sa.length]
  · unfold extract_seeds
    rw [if_pos hL]
  · unfold seed_and_extend seed_starts
    simp only [if_pos hK, List.foldl_nil]

/-- Witness for C9 at a concrete input: pattern `"GX"` contains `'X'`,
which does not occur in the transformed string of `"AC$"`, and the seed
length 9 exceeds the length of the 4-character read (for
`seed_and_extend`, `K = 0` gives internal seed length `max 8 1 = 8 > 4`). -/
theorem C9_missing_symbol_and_degenerate_seeds_witness :
    FM_backward_search ['G', 'X']
        (build_count_table (build_BWT (['A', 'C'] ++ ['$'])
          (build_suffix_array (['A', 'C'] ++ ['$']))))
        (build_occurrence_table (build_BWT (['A', 'C'] ++ ['$'])
          (build_suffix_array (['A', 'C'] ++ ['$']))))
        (build_suffix_array (['A', 'C'] ++ ['$'])).length = none ∧
      locate_pattern ['G', 'X'] (build_suffix_array (['A', 'C'] ++ ['$']))
        (build_count_table (build_BWT (['A', 'C'] ++ ['$'])
          (build_suffix_array (['A', 'C'] ++ ['$']))))
        (build_occurrence_table (build_BWT (['A', 'C'] ++ ['$'])
          (build_suffix_array (['A', 'C'] ++ ['$'])))) = [] ∧
      find_pattern ['G', 'X'] (build_suffix_array (['A', 'C'] ++ ['$']))
        (build_count_table (build_BWT (['A', 'C'] ++ ['$'])
          (build_suffix_array (['A', 'C'] ++ ['$']))))
        (build_occurrence_table (build_BWT (['A', 'C'] ++ ['$'])
          (build_suffix_array (['A', 'C'] ++ ['$'])))) = [] ∧
      extract_seeds ['A', 'C', 'G', 'T'] 9 15 = [] ∧
      seed_and_extend ['A', 'C', 'G', 'T'] ['A', 'C']
        (build_suffix_array (['A', 'C'] ++ ['$']))
        (build_count_table (build_BWT (['A', 'C'] ++ ['$'])
          (build_suffix_array (['A', 'C'] ++ ['$']))))
        (build_occurrence_table (build_BWT (['A', 'C'] ++ ['$'])
          (build_suffix_array (['A', 'C'] ++ ['$'])))) 0 = [] :=
  C9_missing_symbol_and_degenerate_seeds ['G', 'X']
    (build_BWT (['A', 'C'] ++ ['$']) (build_suffix_array (['A', 'C'] ++ ['$'])))
    (build_suffix_array (['A', 'C'] ++ ['$']))
    (build_occurrence_table (build_BWT (['A', 'C'] ++ ['$'])
      (build_suffix_array (['A', 'C'] ++ ['$']))))
    'X' (by decide) (by decide) ['A', 'C', 'G', 'T'] ['A', 'C'] 9 15 0
    (by decide) (by decide)

/-! ### Suffix-array correctness (claim C7) -/

theorem build_suffix_array_perm (t : List Char) :
    List.Perm (build_suffix_array t) (List.range t.length) :=
  pySort_perm _ _

theorem build_suffix_array_length (t : List Char) :
    (build_suffix_array t).length = t.length := by
  rw [(build_suffix_array_perm t).length_eq, List.length_range]

theorem build_suffix_array_pairwise (t : List Char) :
    (build_suffix_array t).Pairwise
      (fun i j => leStr (t.drop i) (t.drop j) = true) :=
  pySort_pairwise (fun i j => leStr (t.drop i) (t.drop j))
    (fun _ _ => leStr_total _ _)
    (fun _ _ _ h1 h2 => leStr_trans h1 h2) (List.range t.length)

theorem build_suffix_array_nodup (t : List Char) :
    (build_suffix_array t).Nodup :=
  (build_suffix_array_perm t).nodup_iff.2 (List.nodup_range t.length)

/-- Entries of the suffix array are positions of the text. -/
theorem build_suffix_array_mem {t : List Char} {q : Nat}
    (h : q ∈ build_suffix_array t) : q < t.length :=
  List.mem_range.1 ((build_suffix_array_perm t).mem_iff.1 h)

/-- Ordered entries of the suffix array: earlier rows carry
lexicographically non-greater suffixes. -/
theorem build_suffix_array_sorted_le (t : List Char) {i j : Nat}
    (hij : i < j) (hj : j < t.length) :
    leStr (t.drop ((build_suffix_array t).getD i 0))
      (t.drop ((build_suffix_array t).getD j 0)) = true := by
  have hlen := build_suffix_array_length t
  have hi' : i < (build_suffix_array t).length := by omega
  have hj' : j < (build_suffix_array t).length := by omega
  have h := build_suffix_array_pairwise t
  rw [List.pairwise_iff_get] at h
  have := h ⟨i, hi'⟩ ⟨j, hj'⟩ hij
  rwa [List.getD_eq_getElem _ 0 hi', List.getD_eq_getElem _ 0 hj',
    show (build_suffix_array t)[i] = (build_suffix_array t).get ⟨i, hi'⟩ from rfl,
    show (build_suffix_array t)[j] = (build_suffix_array t).get ⟨j, hj'⟩ from rfl]

/-- Distinct suffix-array rows carry distinct (hence strictly ordered)
suffixes: the suffixes of a fixed text at distinct start positions have
distinct lengths, so they are never equal as strings. -/
theorem drop_injective_of_lt {t : List Char} {p q : Nat}
    (hp : p < t.length) (hq : q < t.length) (hne : p ≠ q) :
    t.drop p ≠ t.drop q := by
  intro h
  have := congrArg List.length h
  rw [List.length_drop, List.length_drop] at this
  omega

/-- Strictly ordered entries of the suffix array. -/
theorem build_suffix_array_sorted_lt (t : List Char) {i j : Nat}
    (hij : i < j) (hj : j < t.length) :
    ltStr (t.drop ((build_suffix_array t).getD i 0))
      (t.drop ((build_suffix_array t).getD j 0)) = true := by
  have hle := build_suffix_array_sorted_le t hij hj
  unfold leStr at hle
  rw [Bool.not_eq_true'] at hle
  cases hlt : ltStr (t.drop ((build_suffix_array t).getD i 0))
      (t.drop ((build_suffix_array t).getD j 0)) with
  | true => rfl
  | false =>
    exfalso
    have heq := ltStr_connex hlt hle
    have hlen := build_suffix_array_length t
    have hi' : i < (build_suffix_array t).length := by omega
    have hj' : j < (build_suffix_array t).length := by omega
    have hmemi : (build_suffix_array t).getD i 0 ∈ build_suffix_array t := by
      rw [List.getD_eq_getElem _ 0 hi']
      exact List.getElem_mem hi' 
    have hmemj : (build_suffix_array t).getD j 0 ∈ build_suffix_array t := by
      rw [List.getD_eq_getElem _ 0 hj']
      exact List.getElem_mem hj' 
    have hne : (build_suffix_array t).getD i 0 ≠ (build_suffix_array t).getD j 0 := by
      intro h
      have hnodup := build_suffix_array_nodup t
      rw [List.nodup_iff_injective_get] at hnodup
      rw [List.getD_eq_getElem _ 0 hi', List.getD_eq_getElem _ 0 hj'] at h
      have : (⟨i, hi'⟩ : Fin (build_suffix_array t).length) = ⟨j, hj'⟩ := hnodup h
      simp at this
      omega
    exact drop_injective_of_lt (build_suffix_array_mem hmemi)
      (build_suffix_array_mem hmemj) hne heq

/-- **C7**: for every reference, the suffix array built over the
sentinel-terminated reference is a permutation of the offsets
`0 .. |R|`, and the suffixes it lists are in non-decreasing lexicographic
order (each adjacent pair satisfies `suffix(sa[i]) ≤ suffix(sa[i+1])`,
i.e. strictly less or equal). -/
theorem C7_suffix_array_sorted_permutation (r : List Char) (i : Nat)
    (hi : i + 1 < (r ++ ['$']).length) :
    List.Perm (build_suffix_array (r ++ ['$'])) (List.range (r.length + 1)) ∧
      (List.Lex (· < ·)
          ((r ++ ['$']).drop ((build_suffix_array (r ++ ['$'])).getD i 0))
          ((r ++ ['$']).drop ((build_suffix_array (r ++ ['$'])).getD (i + 1) 0)) ∨
        (r ++ ['$']).drop ((build_suffix_array (r ++ ['$'])).getD i 0) =
          (r ++ ['$']).drop ((build_suffix_array (r ++ ['$'])).getD (i + 1) 0)) := by
  constructor
  · have := build_suffix_array_perm (r ++ ['$'])
    rwa [List.length_append, List.length_singleton] at this
  · exact Or.inl (ltStr_iff_lex.1
      (build_suffix_array_sorted_lt (r ++ ['$']) (Nat.lt_succ_self i) hi))

/-- Witness for C7 at the reference `"AC"` and adjacent pair `i = 0`:
the suffix array of `"AC$"` is a permutation of `{0, 1, 2}` and the
suffix at row 0 precedes the suffix at row 1. -/
theorem C7_suffix_array_sorted_permutation_witness :
    List.Perm (build_suffix_array (['A', 'C'] ++ ['$'])) (List.range 3) ∧
      (List.Lex (· < ·)
          ((['A', 'C'] ++ ['$']).drop
            ((build_suffix_array (['A', 'C'] ++ ['$'])).getD 0 0))
          ((['A', 'C'] ++ ['$']).drop
            ((build_suffix_array (['A', 'C'] ++ ['$'])).getD 1 0)) ∨
        (['A', 'C'] ++ ['$']).drop
            ((build_suffix_array (['A', 'C'] ++ ['$'])).getD 0 0) =
          (['A', 'C'] ++ ['$']).drop
            ((build_suffix_array (['A', 'C'] ++ ['$'])).getD 1 0)) :=
  C7_suffix_array_sorted_permutation ['A', 'C'] 0 (by decide)

/-! ### Generic counting lemmas -/

/-- Membership form of `List.getD` for in-range indices. -/
theorem getD_mem_of_lt (l : List α) (r : Nat) (d : α) (hr : r < l.length) :
    l.getD r d ∈ l := by
  rw [List.getD_eq_getElem l d hr]
  exact List.getElem_mem hr

/-- In a list sorted by `le` whose predicate `pred` is closed downwards
along `le`, the elements satisfying `pred` are exactly the first
`countP pred` ones. -/
theorem countP_initial (pred : α → Bool) (le : α → α → Bool)
    (closed : ∀ a b, le a b = true → pred b = true → pred a = true) :
    ∀ (l : List α), l.Pairwise (fun a b => le a b = true) →
      ∀ (r : Nat) (d : α), r < l.length →
        (pred (l.getD r d) = true ↔ r < l.countP pred)
  | [], _, r, d, hr => absurd hr (Nat.not_lt_zero r)
  | x :: xs, hpw, r, d, hr => by
    rw [List.pairwise_cons] at hpw
    by_cases hx : pred x = true
    · rw [List.countP_cons_of_pos _ _ hx]
      cases r with
      | zero =>
        simp [hx]
      | succ r =>
        rw [List.length_cons] at hr
        have := countP_initial pred le closed xs hpw.2 r d (by omega)
        simpa using this
    · have hall : ∀ y ∈ xs, ¬ pred y = true := by
        intro y hy hpy
        exact hx (closed x y (hpw.1 y hy) hpy)
      have hz : (x :: xs).countP pred = 0 := by
        rw [List.countP_eq_zero]
        intro a ha
        rcases List.mem_cons.1 ha with rfl | ha
        · exact hx
        · exact hall a ha
      rw [hz]
      simp only [Nat.not_lt_zero, iff_false]
      cases r with
      | zero => exact hx
      | succ r =>
        rw [List.length_cons] at hr
        intro hp
        exact hall _ (getD_mem_of_lt xs r d (by omega)) hp

/-- `countP` of a pointwise disjunction of disjoint predicates adds up. -/
theorem countP_or_disjoint (p q : α → Bool) :
    ∀ l : List α, (∀ x ∈ l, ¬(p x = true ∧ q x = true)) →
      l.countP (fun x => p x || q x) = l.countP p + l.countP q
  | [], _ => rfl
  | x :: xs, h => by
    have ih := countP_or_disjoint p q xs (fun y hy => h y (List.mem_cons_of_mem x hy))
    have hx := h x (List.mem_cons_self x xs)
    rw [List.countP_cons, List.countP_cons, List.countP_cons, ih]
    by_cases hp : p x = true <;> by_cases hq : q x = true <;>
      simp [hp, hq] at hx ⊢ <;> omega

theorem countP_range_succ (p : Nat → Bool) (n : Nat) :
    (List.range (n + 1)).countP p =
      (List.range n).countP p + if p n = true then 1 else 0 := by
  rw [List.range_succ, List.countP_append]
  simp [List.countP_cons]

/-- Restricting a count over `range n` by an indicator of `[0, k)`. -/
theorem countP_range_split (p q : Nat → Bool) :
    ∀ n k : Nat, k ≤ n → (∀ i, i < n → (q i = true ↔ i < k)) →
      (List.range n).countP (fun i => q i && p i) = (List.range k).countP p
  | 0, k, hk, _ => by
    have : k = 0 := by omega
    subst this
    rfl
  | n + 1, k, hk, hq => by
    by_cases hkn : k ≤ n
    · rw [countP_range_succ]
      have hqn : q n = false := by
        have := hq n (by omega)
        rw [Bool.eq_false_iff]
        intro h
        exact absurd (this.1 h) (by omega)
      rw [countP_range_split p q n k hkn (fun i hi => hq i (by omega))]
      simp [hqn]
    · have hkeq : k = n + 1 := by omega
      subst hkeq
      refine List.countP_congr ?_
      intro i hi
      have hi' : i < n + 1 := List.mem_range.1 hi
      have := (hq i hi').2 hi'
      simp [this]

/-- Reading every position of a list with `getD` reproduces the list. -/
theorem map_getD_range (d : α) :
    ∀ l : List α, (List.range l.length).map (fun q => l.getD q d) = l
  | [] => rfl
  | x :: xs => by
    rw [List.length_cons, List.range_succ_eq_map, List.map_cons, List.map_map]
    show x :: (List.range xs.length).map (fun q => xs.getD q d) = x :: xs
    rw [map_getD_range d xs]

/-! ### The transformed string is a permutation of the text -/

/-- The character the BWT construction places in row `i` (the character
cyclically preceding suffix `suffix_array[i]`). -/
theorem build_BWT_eq_map (t : List Char) (sa : List Nat) (hlen : sa.length = t.length) :
    build_BWT t sa = sa.map (fun j =>
      if j = 0 then t.getD (t.length - 1) 'x' else t.getD (j - 1) 'x') := by
  conv_rhs => rw [← map_getD_range 0 sa, List.map_map, hlen]
  rfl

theorem build_BWT_perm (t : List Char) :
    List.Perm (build_BWT t (build_suffix_array t)) t := by
  rw [build_BWT_eq_map t _ (build_suffix_array_length t)]
  have h1 : List.Perm
      ((build_suffix_array t).map (fun j =>
        if j = 0 then t.getD (t.length - 1) 'x' else t.getD (j - 1) 'x'))
      ((List.range t.length).map (fun j =>
        if j = 0 then t.getD (t.length - 1) 'x' else t.getD (j - 1) 'x')) :=
    (build_suffix_array_perm t).map _
  refine h1.trans ?_
  cases t with
  | nil => exact List.Perm.refl _
  | cons x xs =>
    have hstep : (List.range (x :: xs).length).map (fun j =>
        if j = 0 then (x :: xs).getD ((x :: xs).length - 1) 'x'
        else (x :: xs).getD (j - 1) 'x') =
        (x :: xs).getD xs.length 'x' ::
          (List.range xs.length).map (fun q => (x :: xs).getD q 'x') := by
      rw [List.length_cons, List.range_succ_eq_map, List.map_cons, List.map_map]
      refine congrArg₂ _ (by simp) ?_
      refine List.map_congr_left ?_
      intro q _
      simp
    rw [hstep]
    have h3 : (x :: xs) =
        (List.range xs.length).map (fun q => (x :: xs).getD q 'x') ++
          [(x :: xs).getD xs.length 'x'] := by
      conv_lhs => rw [← map_getD_range 'x' (x :: xs)]
      rw [List.length_cons, List.range_succ, List.map_append]
      rfl
    conv_rhs => rw [h3]
    exact (List.perm_append_singleton _ _).symm

theorem mem_bwt (t : List Char) (c : Char) :
    c ∈ build_BWT t (build_suffix_array t) ↔ c ∈ t :=
  (build_BWT_perm t).mem_iff

/-- Count-table entries over the real index: present characters map to
the number of strictly smaller characters of the text. -/
theorem count_table_eq (t : List Char) (c : Char) (hc : c ∈ t) :
    build_count_table (build_BWT t (build_suffix_array t)) c =
      some (t.countP (fun d => decide (d < c))) := by
  unfold build_count_table
  rw [if_pos ((mem_bwt t c).2 hc), ← List.countP_eq_length_filter,
    (build_BWT_perm t).countP_eq]

theorem count_table_eq_none (t : List Char) (c : Char) (hc : c ∉ t) :
    build_count_table (build_BWT t (build_suffix_array t)) c = none := by
  unfold build_count_table
  rw [if_neg (fun h => hc ((mem_bwt t c).1 h))]

/-! ### Rank queries as position counts -/

/-- The rank `occ c k`, at a row count `k` given by a suffix-order
downward-closed position predicate `S`, counts the positions satisfying
`S` whose cyclically preceding character is `c`. -/
theorem occ_row_count (t : List Char) (S : Nat → Bool)
    (closed : ∀ i j, leStr (t.drop i) (t.drop j) = true → S j = true → S i = true)
    (c : Char) :
    build_occurrence_table (build_BWT t (build_suffix_array t)) c
        ((List.range t.length).countP S) =
      (List.range t.length).countP
        (fun q => S q && decide ((if q = 0 then t.getD (t.length - 1) 'x'
          else t.getD (q - 1) 'x') = c)) := by
  have hk : (List.range t.length).countP S ≤ t.length := by
    have h0 : (List.range t.length).countP S ≤ (List.range t.length).length :=
      List.countP_le_length S
    rwa [List.length_range] at h0
  have hcount : ∀ i, i < t.length →
      (S ((build_suffix_array t).getD i 0) = true ↔
        i < (List.range t.length).countP S) := by
    intro i hi
    have hlen := build_suffix_array_length t
    have := countP_initial S (fun a b => leStr (t.drop a) (t.drop b))
      (fun a b hab hb => closed a b hab hb) (build_suffix_array t)
      (build_suffix_array_pairwise t) i 0 (by omega)
    rwa [(build_suffix_array_perm t).countP_eq] at this
  unfold build_occurrence_table build_BWT
  rw [← List.countP_eq_length_filter, ← List.map_take, List.take_range,
    Nat.min_eq_left hk, List.countP_map]
  show (List.range ((List.range t.length).countP S)).countP
      (fun i => decide ((if (build_suffix_array t).getD i 0 = 0
        then t.getD (t.length - 1) 'x'
        else t.getD ((build_suffix_array t).getD i 0 - 1) 'x') = c)) = _
  rw [← countP_range_split (fun i => decide ((if (build_suffix_array t).getD i 0 = 0
      then t.getD (t.length - 1) 'x'
      else t.getD ((build_suffix_array t).getD i 0 - 1) 'x') = c))
    (fun i => S ((build_suffix_array t).getD i 0)) t.length
    ((List.range t.length).countP S) hk
    (fun i hi => hcount i hi)]
  have hmap : (List.range t.length).countP
      (fun i => S ((build_suffix_array t).getD i 0) &&
        decide ((if (build_suffix_array t).getD i 0 = 0 then t.getD (t.length - 1) 'x'
          else t.getD ((build_suffix_array t).getD i 0 - 1) 'x') = c)) =
      (build_suffix_array t).countP
        (fun q => S q && decide ((if q = 0 then t.getD (t.length - 1) 'x'
          else t.getD (q - 1) 'x') = c)) := by
    conv_rhs => rw [← map_getD_range 0 (build_suffix_array t),
      build_suffix_array_length t, List.countP_map]
    rfl
  rw [hmap, (build_suffix_array_perm t).countP_eq]

/-- Shifting the position index: for a character `c` different from the
last character of a non-empty text, counting positions by the cyclic
predecessor character equals counting predecessors directly. -/
theorem pos_shift (t : List Char) (ht : t ≠ []) (S : Nat → Bool) (c : Char)
    (hc : ¬ c = t.getD (t.length - 1) 'x') :
    (List.range t.length).countP
        (fun q => S q && decide ((if q = 0 then t.getD (t.length - 1) 'x'
          else t.getD (q - 1) 'x') = c)) =
      (List.range t.length).countP
        (fun q => decide (t.getD q 'x' = c) && S (q + 1)) := by
  obtain ⟨m, hm⟩ : ∃ m, t.length = m + 1 := by
    cases hl : t.length with
    | zero => exact absurd (List.length_eq_zero.1 hl) ht
    | succ m => exact ⟨m, rfl⟩
  have hm1 : t.length - 1 = m := by omega
  rw [hm1] at hc ⊢
  rw [hm]
  conv_lhs => rw [List.range_succ_eq_map, List.countP_cons]
  conv_rhs => rw [List.range_succ, List.countP_append]
  have hzero : (S 0 && decide ((if (0 : Nat) = 0 then t.getD m 'x'
      else t.getD (0 - 1) 'x') = c)) = false := by
    have hd : decide ((if (0 : Nat) = 0 then t.getD m 'x'
        else t.getD (0 - 1) 'x') = c) = false := by
      rw [if_pos rfl, decide_eq_false_iff_not]
      intro h
      exact hc h.symm
    rw [hd, Bool.and_false]
  rw [hzero, List.countP_map]
  have hlast : (decide (t.getD m 'x' = c) && S (m + 1)) = false := by
    have hd : decide (t.getD m 'x' = c) = false := by
      rw [decide_eq_false_iff_not]
      intro h
      exact hc h.symm
    rw [hd, Bool.false_and]
  have hsingle : ([m].countP fun q => decide (t.getD q 'x' = c) && S (q + 1)) = 0 := by
    rw [List.countP_cons, List.countP_nil, hlast]
    rfl
  rw [hsingle, Nat.add_zero]
  simp only [Bool.false_eq_true, if_neg, not_false_iff, Nat.add_zero]
  refine List.countP_congr ?_
  intro q _
  show (S (q + 1) && decide ((if q + 1 = 0 then t.getD m 'x'
      else t.getD (q + 1 - 1) 'x') = c)) = true ↔
    (decide (t.getD q 'x' = c) && S (q + 1)) = true
  rw [if_neg (Nat.succ_ne_zero q), Nat.add_sub_cancel, Bool.and_comm]

/-! ### Decomposition of the search-interval predicates -/

theorem ltStr_nil_right : ∀ s : List Char, ltStr s [] = false
  | [] => rfl
  | _ :: _ => rfl

theorem prefix_not_ltStr : ∀ {p s : List Char}, p <+: s → ltStr s p = false
  | [], s, _ => ltStr_nil_right s
  | c :: p, [], h => absurd (List.eq_nil_of_prefix_nil h) (List.cons_ne_nil c p)
  | c :: p, x :: s, h => by
    obtain ⟨hcx, hps⟩ := List.cons_prefix_cons.1 h
    subst hcx
    simp only [ltStr, lt_irrefl, if_false]
    exact prefix_not_ltStr hps

theorem prefix_lt_cases :
    ∀ {p b a : List Char}, p <+: b → ltStr a b = true →
      ltStr a p = true ∨ p <+: a
  | [], _, a, _, _ => Or.inr (List.nil_prefix)
  | c :: p, b, a, hpb, hab => by
    cases b with
    | nil => exact absurd (List.eq_nil_of_prefix_nil hpb) (List.cons_ne_nil c p)
    | cons y b =>
      obtain ⟨hcy, hpb'⟩ := List.cons_prefix_cons.1 hpb
      subst hcy
      cases a with
      | nil => exact Or.inl rfl
      | cons x a =>
        simp only [ltStr] at hab
        by_cases hxc : x < c
        · exact Or.inl (by simp [ltStr, hxc])
        · by_cases hcx : c < x
          · rw [if_neg hxc, if_pos hcx] at hab
            exact absurd hab (by simp)
          · have hxc2 : x = c := le_antisymm (le_of_not_lt hcx) (le_of_not_lt hxc)
            subst hxc2
            rw [if_neg hxc, if_neg hcx] at hab
            rcases prefix_lt_cases hpb' hab with h | h
            · exact Or.inl (by simp [ltStr, h])
            · exact Or.inr (List.cons_prefix_cons.2 ⟨rfl, h⟩)

/-- One-character decomposition of the strict comparison against
`c :: p`. -/
theorem ltStr_cons_eq (x : Char) (s : List Char) (c : Char) (p : List Char) :
    ltStr (x :: s) (c :: p) =
      (decide (x < c) || (decide (x = c) && ltStr s p)) := by
  simp only [ltStr]
  by_cases hxc : x < c
  · simp [hxc]
  · by_cases hcx : c < x
    · have : ¬ x = c := fun h => absurd hcx (h ▸ hxc)
      simp [hxc, hcx, this]
    · have hxc2 : x = c := le_antisymm (le_of_not_lt hcx) (le_of_not_lt hxc)
      simp [hxc, hcx, hxc2]

/-- One-character decomposition of the "smaller or prefixed" predicate
against `c :: p`. -/
theorem upPred_cons_eq (x : Char) (s : List Char) (c : Char) (p : List Char) :
    (ltStr (x :: s) (c :: p) || decide (c :: p <+: x :: s)) =
      (decide (x < c) ||
        (decide (x = c) && (ltStr s p || decide (p <+: s)))) := by
  rw [ltStr_cons_eq]
  have hpre : decide (c :: p <+: x :: s) = (decide (x = c) && decide (p <+: s)) := by
    by_cases hxc : x = c
    · subst hxc
      by_cases hps : p <+: s
      · simp [hps, List.cons_prefix_cons]
      · simp [hps, List.cons_prefix_cons]
    · have : ¬ (c :: p <+: x :: s) := by
        intro h
        exact hxc (List.cons_prefix_cons.1 h).1.symm
      simp [this, hxc]
  rw [hpre]
  by_cases h1 : x < c <;> by_cases h2 : x = c <;>
    by_cases h3 : ltStr s p <;> by_cases h4 : p <+: s <;>
    simp [h1, h2, h3, h4]

/-- Downward closure (along suffix order) of the "strictly smaller"
predicate. -/
theorem closed_lt {a b p : List Char} (hab : leStr a b = true)
    (hbp : ltStr b p = true) : ltStr a p = true := by
  unfold leStr at hab
  rw [Bool.not_eq_true'] at hab
  cases hlt : ltStr a b with
  | true => exact ltStr_trans hlt hbp
  | false => rw [ltStr_connex hlt hab]; exact hbp

/-- Downward closure (along suffix order) of the "smaller or prefixed"
predicate. -/
theorem closed_up {a b p : List Char} (hab : leStr a b = true)
    (hb : (ltStr b p || decide (p <+: b)) = true) :
    (ltStr a p || decide (p <+: a)) = true := by
  rcases Bool.or_eq_true_iff.1 hb with hlt | hpre
  · exact Bool.or_eq_true_iff.2 (Or.inl (closed_lt hab hlt))
  · have hpre' : p <+: b := of_decide_eq_true hpre
    unfold leStr at hab
    rw [Bool.not_eq_true'] at hab
    cases hlt : ltStr a b with
    | false =>
      rw [ltStr_connex hlt hab]
      exact hb
    | true =>
      rcases prefix_lt_cases hpre' hlt with h | h
      · exact Bool.or_eq_true_iff.2 (Or.inl h)
      · exact Bool.or_eq_true_iff.2 (Or.inr (decide_eq_true h))

/-! ### Step identities for the search interval -/

theorem ltCount_nil (t : List Char) : ltCount t [] = 0 := by
  unfold ltCount
  rw [List.countP_eq_zero]
  intro q _
  rw [ltStr_nil_right]
  exact Bool.false_ne_true

theorem upCount_nil (t : List Char) : upCount t [] = t.length := by
  unfold upCount
  have h : ∀ q ∈ List.range t.length,
      (ltStr (t.drop q) [] || decide (([] : List Char) <+: t.drop q)) = true := by
    intro q _
    rw [decide_eq_true (List.nil_prefix), Bool.or_true]
  calc (List.range t.length).countP
        (fun q => ltStr (t.drop q) [] || decide (([] : List Char) <+: t.drop q))
      = (List.range t.length).countP (fun _ => true) :=
        List.countP_congr (fun q hq => by rw [h q hq])
    _ = t.length := by rw [List.countP_true, List.length_range]

theorem upCount_eq_add (t p : List Char) :
    upCount t p = ltCount t p + occCount t p := by
  unfold upCount ltCount occCount
  refine countP_or_disjoint _ _ (List.range t.length) ?_
  intro q _ ⟨h1, h2⟩
  rw [prefix_not_ltStr (of_decide_eq_true h2)] at h1
  exact Bool.false_ne_true h1

theorem upCount_le_length (t p : List Char) : upCount t p ≤ t.length := by
  have h0 : (List.range t.length).countP
      (fun q => ltStr (t.drop q) p || decide (p <+: t.drop q)) ≤
      (List.range t.length).length :=
    List.countP_le_length (fun q => ltStr (t.drop q) p || decide (p <+: t.drop q))
  rwa [List.length_range] at h0

/-- The two interval bounds written with the step character, using the
rank/count correspondence.  This is the heart of the backward-search
step: prepending `c` to the processed pattern moves the bounds by the
count-table entry plus the rank at the old bound. -/
theorem ltCount_cons (t : List Char) (ht : t ≠ []) (c : Char) (p : List Char)
    (hc : ¬ c = t.getD (t.length - 1) 'x') :
    ltCount t (c :: p) =
      t.countP (fun d => decide (d < c)) +
        build_occurrence_table (build_BWT t (build_suffix_array t)) c
          (ltCount t p) := by
  unfold ltCount
  have hdecomp : (List.range t.length).countP
      (fun q => ltStr (t.drop q) (c :: p)) =
      (List.range t.length).countP
        (fun q => decide (t.getD q 'x' < c) ||
          (decide (t.getD q 'x' = c) && ltStr (t.drop (q + 1)) p)) := by
    refine List.countP_congr ?_
    intro q hq
    have hql : q < t.length := List.mem_range.1 hq
    rw [List.drop_eq_getElem_cons hql, ← List.getD_eq_getElem t 'x' hql,
      ltStr_cons_eq]
  rw [hdecomp, countP_or_disjoint _ _ _ (by
    intro q _ ⟨h1, h2⟩
    rw [Bool.and_eq_true] at h2
    exact absurd (of_decide_eq_true h1)
      (by rw [of_decide_eq_true h2.1]; exact lt_irrefl c))]
  congr 1
  · conv_rhs => rw [← map_getD_range 'x' t, List.countP_map]
    rfl
  · rw [occ_row_count t (fun q => ltStr (t.drop q) p)
      (fun i j hij hj => closed_lt hij hj) c,
      pos_shift t ht (fun q => ltStr (t.drop q) p) c hc]

theorem upCount_cons (t : List Char) (ht : t ≠ []) (c : Char) (p : List Char)
    (hc : ¬ c = t.getD (t.length - 1) 'x') :
    upCount t (c :: p) =
      t.countP (fun d => decide (d < c)) +
        build_occurrence_table (build_BWT t (build_suffix_array t)) c
          (upCount t p) := by
  unfold upCount
  have hdecomp : (List.range t.length).countP
      (fun q => ltStr (t.drop q) (c :: p) || decide (c :: p <+: t.drop q)) =
      (List.range t.length).countP
        (fun q => decide (t.getD q 'x' < c) ||
          (decide (t.getD q 'x' = c) &&
            (ltStr (t.drop (q + 1)) p || decide (p <+: t.drop (q + 1))))) := by
    refine List.countP_congr ?_
    intro q hq
    have hql : q < t.length := List.mem_range.1 hq
    rw [List.drop_eq_getElem_cons hql, ← List.getD_eq_getElem t 'x' hql,
      upPred_cons_eq]
  rw [hdecomp, countP_or_disjoint _ _ _ (by
    intro q _ ⟨h1, h2⟩
    rw [Bool.and_eq_true] at h2
    exact absurd (of_decide_eq_true h1)
      (by rw [of_decide_eq_true h2.1]; exact lt_irrefl c))]
  congr 1
  · conv_rhs => rw [← map_getD_range 'x' t, List.countP_map]
    rfl
  · rw [occ_row_count t
      (fun q => ltStr (t.drop q) p || decide (p <+: t.drop q))
      (fun i j hij hj => closed_up hij hj) c,
      pos_shift t ht _ c hc]

/-! ### Occurrence counts -/

theorem occCount_eq_zero_iff (t p : List Char) :
    occCount t p = 0 ↔ ¬ ∃ q, occursAt t p q := by
  unfold occCount
  rw [List.countP_eq_zero]
  constructor
  · rintro h ⟨q, hq, hpre⟩
    exact h q (List.mem_range.2 hq) (decide_eq_true hpre)
  · intro h q hq hpre
    exact h ⟨q, List.mem_range.1 hq, of_decide_eq_true hpre⟩

theorem occCount_suffix_zero (t x p : List Char) (h : occCount t p = 0) :
    occCount t (x ++ p) = 0 := by
  unfold occCount at h ⊢
  rw [List.countP_eq_zero] at h ⊢
  intro q hq hpre
  have hpre' : (x ++ p) <+: t.drop q := of_decide_eq_true hpre
  cases p with
  | nil =>
    exact h q hq (decide_eq_true List.nil_prefix)
  | cons c p' =>
    obtain ⟨r, hr⟩ := hpre'
    rw [List.append_assoc] at hr
    have hdrop : t.drop (q + x.length) = (c :: p') ++ r := by
      rw [← List.drop_drop, ← hr, List.drop_left]
    have hlen : q + x.length < t.length := by
      have h1 : (t.drop (q + x.length)).length = t.length - (q + x.length) :=
        List.length_drop _ _
      rw [hdrop] at h1
      simp only [List.length_append, List.length_cons] at h1
      omega
    refine h (q + x.length) (List.mem_range.2 hlen) (decide_eq_true ⟨r, hdrop.symm⟩)

theorem occCount_zero_of_missing (t p : List Char) (c : Char)
    (hcp : c ∈ p) (hct : c ∉ t) : occCount t p = 0 := by
  unfold occCount
  rw [List.countP_eq_zero]
  intro q _ hpre
  exact hct (List.drop_subset q t ((of_decide_eq_true hpre).subset hcp))

/-! ### The backward-search loop computes the interval bounds -/

/-- Characterization of the backward-search loop: starting from the
interval of the processed pattern suffix `p`, processing the remaining
(reversed) characters `rl` — none of which is the final character of the
text — yields the interval of the full pattern, or the sentinel when that
interval is empty. -/
theorem FM_loop_char (t : List Char) (ht : t ≠ []) :
    ∀ (rl p : List Char),
      (∀ c ∈ rl, ¬ c = t.getD (t.length - 1) 'x') →
      ltCount t p < upCount t p →
      FM_search_loop (build_count_table (build_BWT t (build_suffix_array t)))
          (build_occurrence_table (build_BWT t (build_suffix_array t)))
          rl (ltCount t p) (upCount t p) =
        if upCount t (rl.reverse ++ p) ≤ ltCount t (rl.reverse ++ p) then none
        else some (ltCount t (rl.reverse ++ p), upCount t (rl.reverse ++ p))
  | [], p, _, hlt => by
    simp only [List.reverse_nil, List.nil_append]
    rw [if_neg (by omega)]
    rfl
  | c :: rl, p, hrl, hlt => by
    have hc : ¬ c = t.getD (t.length - 1) 'x' := hrl c (List.mem_cons_self c rl)
    have hfull : (c :: rl).reverse ++ p = rl.reverse ++ (c :: p) := by
      rw [List.reverse_cons, List.append_assoc, List.singleton_append]
    rw [hfull]
    by_cases hct : c ∈ t
    · rw [FM_search_loop_cons_some _ _ (count_table_eq t c hct) rl _ _]
      have hif : (if 0 < ltCount t p then
          build_occurrence_table (build_BWT t (build_suffix_array t)) c (ltCount t p)
          else 0) =
          build_occurrence_table (build_BWT t (build_suffix_array t)) c
            (ltCount t p) := by
        cases h0 : ltCount t p with
        | zero => rw [if_neg (lt_irrefl 0)]; rfl
        | succ k => rw [if_pos (Nat.succ_pos k)]
      rw [hif, ← ltCount_cons t ht c p hc, ← upCount_cons t ht c p hc]
      by_cases hstop : upCount t (c :: p) ≤ ltCount t (c :: p)
      · rw [if_pos hstop]
        have h0 : occCount t (c :: p) = 0 := by
          have := upCount_eq_add t (c :: p)
          omega
        have h0' : occCount t (rl.reverse ++ (c :: p)) = 0 :=
          occCount_suffix_zero t _ _ h0
        have hadd := upCount_eq_add t (rl.reverse ++ (c :: p))
        rw [if_pos (by omega)]
      · rw [if_neg hstop]
        exact FM_loop_char t ht rl (c :: p)
          (fun d hd => hrl d (List.mem_cons_of_mem c hd)) (by omega)
    · rw [FM_search_loop_cons_none _ _ (count_table_eq_none t c hct) rl _ _]
      have h0 : occCount t (rl.reverse ++ (c :: p)) = 0 :=
        occCount_zero_of_missing t _ c
          (List.mem_append_right _ (List.mem_cons_self c p)) hct
      have hadd := upCount_eq_add t (rl.reverse ++ (c :: p))
      rw [if_pos (by omega)]

/-- Characterization of `FM_backward_search` over the real FM-index of a
non-empty text, for patterns avoiding the final text character: the
result is exactly the (possibly sentinel-collapsed) interval
`[ltCount, upCount)`. -/
theorem FM_backward_search_char (t : List Char) (ht : t ≠ []) (pattern : List Char)
    (hpat : ∀ c ∈ pattern, ¬ c = t.getD (t.length - 1) 'x') :
    FM_backward_search pattern
        (build_count_table (build_BWT t (build_suffix_array t)))
        (build_occurrence_table (build_BWT t (build_suffix_array t)))
        t.length =
      if upCount t pattern ≤ ltCount t pattern then none
      else some (ltCount t pattern, upCount t pattern) := by
  have hmain := FM_loop_char t ht pattern.reverse []
    (fun c hc => hpat c (List.mem_reverse.1 hc))
    (by rw [ltCount_nil, upCount_nil]; exact List.length_pos.2 ht)
  rw [List.reverse_reverse, List.append_nil] at hmain
  unfold FM_backward_search
  rw [← ltCount_nil t, ← upCount_nil t]
  exact hmain

/-- A suffix-array row lies in the interval `[ltCount, upCount)` exactly
when the pattern is a prefix of its suffix. -/
theorem interval_row_iff (t p : List Char) (r : Nat) (hr : r < t.length) :
    (ltCount t p ≤ r ∧ r < upCount t p) ↔
      p <+: t.drop ((build_suffix_array t).getD r 0) := by
  have hlen := build_suffix_array_length t
  have hup := countP_initial
    (fun q => ltStr (t.drop q) p || decide (p <+: t.drop q))
    (fun i j => leStr (t.drop i) (t.drop j))
    (fun a b hab hb => closed_up hab hb)
    (build_suffix_array t) (build_suffix_array_pairwise t) r 0 (by omega)
  have hlt := countP_initial
    (fun q => ltStr (t.drop q) p)
    (fun i j => leStr (t.drop i) (t.drop j))
    (fun a b hab hb => closed_lt hab hb)
    (build_suffix_array t) (build_suffix_array_pairwise t) r 0 (by omega)
  rw [(build_suffix_array_perm t).countP_eq] at hup hlt
  have hup2 : (ltStr (t.drop ((build_suffix_array t).getD r 0)) p ||
      decide (p <+: t.drop ((build_suffix_array t).getD r 0))) = true ↔
      r < upCount t p := hup
  have hlt2 : ltStr (t.drop ((build_suffix_array t).getD r 0)) p = true ↔
      r < ltCount t p := hlt
  clear hup hlt
  rename' hup2 => hup, hlt2 => hlt
  constructor
  · rintro ⟨h1, h2⟩
    have hu := hup.2 h2
    have hl : ltStr (t.drop ((build_suffix_array t).getD r 0)) p = false := by
      cases hx : ltStr (t.drop ((build_suffix_array t).getD r 0)) p with
      | false => rfl
      | true => exact absurd (hlt.1 hx) (by omega)
    rcases Bool.or_eq_true_iff.1 hu with h | h
    · rw [hl] at h
      exact absurd h Bool.false_ne_true
    · exact of_decide_eq_true h
  · intro hpre
    have hu : r < upCount t p := hup.1 (Bool.or_eq_true_iff.2 (Or.inr (decide_eq_true hpre)))
    have hl : ¬ r < ltCount t p := by
      intro h
      have := hlt.2 h
      rw [prefix_not_ltStr hpre] at this
      exact Bool.false_ne_true this
    exact ⟨by omega, hu⟩

/-- The suffix-array entries listed over the interval
`[ltCount, upCount)` are exactly the occurrence positions of the
pattern. -/
theorem interval_map_iff (t pattern : List Char) (q : Nat) :
    (q ∈ (List.range' (ltCount t pattern) (upCount t pattern - ltCount t pattern)).map
        (fun i => (build_suffix_array t).getD i 0)) ↔
      occursAt t pattern q := by
  rw [List.mem_map]
  constructor
  · rintro ⟨r, hr_mem, hr_eq⟩
    rw [List.mem_range'] at hr_mem
    obtain ⟨i, hi, hieq⟩ := hr_mem
    have hrange : ltCount t pattern ≤ r ∧ r < upCount t pattern := by omega
    have hrn : r < t.length := by
      have := upCount_le_length t pattern
      omega
    have hpre := (interval_row_iff t pattern r hrn).1 hrange
    have hlen := build_suffix_array_length t
    have hqn : (build_suffix_array t).getD r 0 < t.length :=
      build_suffix_array_mem (getD_mem_of_lt _ r 0 (by omega))
    rw [hr_eq] at hpre hqn
    exact ⟨hqn, hpre⟩
  · rintro ⟨hqn, hpre⟩
    have hlen := build_suffix_array_length t
    have hqsa : q ∈ build_suffix_array t :=
      (build_suffix_array_perm t).mem_iff.2 (List.mem_range.2 hqn)
    obtain ⟨⟨r, hr⟩, hr_eq⟩ := List.mem_iff_get.1 hqsa
    have hgetD : (build_suffix_array t).getD r 0 = q := by
      rw [List.getD_eq_getElem _ 0 hr]
      exact hr_eq
    have hrn : r < t.length := by omega
    have hrange := (interval_row_iff t pattern r hrn).2 (by rw [hgetD]; exact hpre)
    refine ⟨r, List.mem_range'.2 ⟨r - ltCount t pattern, by omega, by omega⟩, hgetD⟩

/-- Full characterization of `locate_pattern` over the real FM-index of a
non-empty text, for patterns avoiding the final text character: the
returned list contains exactly the occurrence positions of the pattern. -/
theorem locate_pattern_iff (t : List Char) (ht : t ≠ []) (pattern : List Char)
    (hpat : ∀ c ∈ pattern, ¬ c = t.getD (t.length - 1) 'x') (q : Nat) :
    (q ∈ locate_pattern pattern (build_suffix_array t)
        (build_count_table (build_BWT t (build_suffix_array t)))
        (build_occurrence_table (build_BWT t (build_suffix_array t)))) ↔
      occursAt t pattern q := by
  unfold locate_pattern
  rw [build_suffix_array_length t, FM_backward_search_char t ht pattern hpat]
  by_cases hstop : upCount t pattern ≤ ltCount t pattern
  · rw [if_pos hstop]
    show q ∈ ([] : List Nat) ↔ occursAt t pattern q
    simp only [List.not_mem_nil, false_iff]
    have hadd := upCount_eq_add t pattern
    have hltle : ltCount t pattern ≤ upCount t pattern := by omega
    have hocc : occCount t pattern = 0 := by omega
    exact (occCount_eq_zero_iff t pattern).1 hocc ∘ (fun h => ⟨q, h⟩)
  · rw [if_neg hstop]
    show q ∈ (if upCount t pattern ≤ ltCount t pattern then []
      else pySort (fun a b => Nat.ble a b)
        ((List.range' (ltCount t pattern) (upCount t pattern - ltCount t pattern)).map
          (fun i => (build_suffix_array t).getD i 0))) ↔ occursAt t pattern q
    rw [if_neg hstop, mem_pySort]
    exact interval_map_iff t pattern q

/-- The last character of a sentinel-terminated reference is the
sentinel. -/
theorem terminated_last (r : List Char) :
    (r ++ ['$']).getD ((r ++ ['$']).length - 1) 'x' = '$' := by
  have hlen : (r ++ ['$']).length = r.length + 1 := by simp
  rw [hlen, Nat.add_sub_cancel, List.getD_eq_getElem _ 'x' (by simp)]
  exact List.getElem_concat_length r '$' r.length rfl (by simp)

/-- **C1 counterexample**: for the reference `"AC"` and the pattern
`"$A"` (a pattern over the index alphabet, which contains the sentinel),
backward search returns the non-sentinel range `(0, 1)` and
`locate_pattern` returns the non-empty list `[2]`, even though `"$A"`
occurs nowhere in the terminated reference `"AC$"` — the cyclic wrap of
the BWT matches the rotation, not a substring.  This falsifies both the
set-equality part and the no-match part of the claim as stated. -/
theorem C1_counterexample :
    FM_backward_search ['$', 'A']
        (build_count_table (build_BWT (['A', 'C'] ++ ['$'])
          (build_suffix_array (['A', 'C'] ++ ['$']))))
        (build_occurrence_table (build_BWT (['A', 'C'] ++ ['$'])
          (build_suffix_array (['A', 'C'] ++ ['$']))))
        (['A', 'C'] ++ ['$']).length = some (0, 1) ∧
      locate_pattern ['$', 'A'] (build_suffix_array (['A', 'C'] ++ ['$']))
        (build_count_table (build_BWT (['A', 'C'] ++ ['$'])
          (build_suffix_array (['A', 'C'] ++ ['$']))))
        (build_occurrence_table (build_BWT (['A', 'C'] ++ ['$'])
          (build_suffix_array (['A', 'C'] ++ ['$'])))) = [2] ∧
      ∀ q, ¬ occursAt (['A', 'C'] ++ ['$']) ['$', 'A'] q := by
  refine ⟨by decide, by decide, ?_⟩
  intro q hq
  have h3 : q < 3 := by
    have := hq.1
    simpa using this
  interval_cases q <;> revert hq <;> decide

/-- **C1 (amended)**: for every reference and every pattern *not
containing the sentinel character*, backward search on the FM-index of
the sentinel-terminated reference returns a half-open range
`[low, high)` whose suffix-array entries are exactly the start positions
where the pattern occurs in the terminated reference; the sentinel
no-match result is returned exactly when the pattern does not occur, and
the located position list is then empty. -/
theorem C1_backward_search_locates (r pattern : List Char)
    (hp : '$' ∉ pattern) :
    (∀ low high,
        FM_backward_search pattern
            (build_count_table (build_BWT (r ++ ['$'])
              (build_suffix_array (r ++ ['$']))))
            (build_occurrence_table (build_BWT (r ++ ['$'])
              (build_suffix_array (r ++ ['$']))))
            (r ++ ['$']).length = some (low, high) →
          ∀ q, (q ∈ (List.range' low (high - low)).map
              (fun i => (build_suffix_array (r ++ ['$'])).getD i 0) ↔
            occursAt (r ++ ['$']) pattern q)) ∧
      ((¬ ∃ q, occursAt (r ++ ['$']) pattern q) ↔
        FM_backward_search pattern
            (build_count_table (build_BWT (r ++ ['$'])
              (build_suffix_array (r ++ ['$']))))
            (build_occurrence_table (build_BWT (r ++ ['$'])
              (build_suffix_array (r ++ ['$']))))
            (r ++ ['$']).length = none) ∧
      (FM_backward_search pattern
          (build_count_table (build_BWT (r ++ ['$'])
            (build_suffix_array (r ++ ['$']))))
          (build_occurrence_table (build_BWT (r ++ ['$'])
            (build_suffix_array (r ++ ['$']))))
          (r ++ ['$']).length = none →
        locate_pattern pattern (build_suffix_array (r ++ ['$']))
          (build_count_table (build_BWT (r ++ ['$'])
            (build_suffix_array (r ++ ['$']))))
          (build_occurrence_table (build_BWT (r ++ ['$'])
            (build_suffix_array (r ++ ['$'])))) = []) := by
  have ht : (r ++ ['$']) ≠ [] := by simp
  have hpat : ∀ c ∈ pattern, ¬ c = (r ++ ['$']).getD ((r ++ ['$']).length - 1) 'x' := by
    intro c hc heq
    rw [terminated_last] at heq
    exact hp (heq ▸ hc)
  have hchar := FM_backward_search_char (r ++ ['$']) ht pattern hpat
  have hltle : ltCount (r ++ ['$']) pattern ≤ upCount (r ++ ['$']) pattern := by
    have := upCount_eq_add (r ++ ['$']) pattern
    omega
  refine ⟨?_, ?_, ?_⟩
  · intro low high hsome q
    rw [hchar] at hsome
    by_cases hstop : upCount (r ++ ['$']) pattern ≤ ltCount (r ++ ['$']) pattern
    · rw [if_pos hstop] at hsome
      exact absurd hsome (Option.noConfusion)
    · rw [if_neg hstop] at hsome
      have hlow : low = ltCount (r ++ ['$']) pattern ∧
          high = upCount (r ++ ['$']) pattern := by
        have := Option.some_inj.1 hsome
        exact ⟨congrArg Prod.fst this.symm, congrArg Prod.snd this.symm⟩
      rw [hlow.1, hlow.2]
      exact interval_map_iff (r ++ ['$']) pattern q
  · rw [hchar]
    constructor
    · intro hno
      have hocc : occCount (r ++ ['$']) pattern = 0 :=
        (occCount_eq_zero_iff _ _).2 hno
      have := upCount_eq_add (r ++ ['$']) pattern
      rw [if_pos (by omega)]
    · intro hnone
      by_cases hstop : upCount (r ++ ['$']) pattern ≤ ltCount (r ++ ['$']) pattern
      · have hocc : occCount (r ++ ['$']) pattern = 0 := by
          have := upCount_eq_add (r ++ ['$']) pattern
          omega
        exact (occCount_eq_zero_iff _ _).1 hocc
      · rw [if_neg hstop] at hnone
        exact absurd hnone (Option.noConfusion)
  · intro hnone
    unfold locate_pattern
    rw [build_suffix_array_length, hnone]

/-- Witness for the amended C1 at the reference `"ACG"` and pattern
`"CG"`: backward search returns the range `(2, 3)`, and position 1 is
listed iff `"CG"` occurs at position 1 of `"ACG$"` (it does). -/
theorem C1_backward_search_locates_witness :
    (1 ∈ (List.range' 2 (3 - 2)).map
        (fun i => (build_suffix_array (['A', 'C', 'G'] ++ ['$'])).getD i 0)) ↔
      occursAt (['A', 'C', 'G'] ++ ['$']) ['C', 'G'] 1 :=
  (C1_backward_search_locates ['A', 'C', 'G'] ['C', 'G'] (by decide)).1 2 3
    (by decide) 1

/-- **C2 counterexample**: for the reference `"ACGTACGTTTCGATCGA"` and the
read `"ACGTTTC"`, the tolerant seed-and-extend tier with `K = 0` returns
the empty list — its internal seed length is `max 8 (7 / 1) = 8`, which
exceeds the read length 7, so no seeds are generated — contradicting the
claimed record at position 4 with `mismatches = 0` and `score = 7`. -/
theorem C2_counterexample :
    seed_and_extend ['A', 'C', 'G', 'T', 'T', 'T', 'C'] ['A', 'C', 'G', 'T', 'A', 'C', 'G', 'T', 'T', 'T', 'C', 'G', 'A', 'T', 'C', 'G', 'A']
      (build_suffix_array (['A', 'C', 'G', 'T', 'A', 'C', 'G', 'T', 'T', 'T', 'C', 'G', 'A', 'T', 'C', 'G', 'A'] ++ ['$']))
      (build_count_table (build_BWT (['A', 'C', 'G', 'T', 'A', 'C', 'G', 'T', 'T', 'T', 'C', 'G', 'A', 'T', 'C', 'G', 'A'] ++ ['$'])
        (build_suffix_array (['A', 'C', 'G', 'T', 'A', 'C', 'G', 'T', 'T', 'T', 'C', 'G', 'A', 'T', 'C', 'G', 'A'] ++ ['$']))))
      (build_occurrence_table (build_BWT (['A', 'C', 'G', 'T', 'A', 'C', 'G', 'T', 'T', 'T', 'C', 'G', 'A', 'T', 'C', 'G', 'A'] ++ ['$'])
        (build_suffix_array (['A', 'C', 'G', 'T', 'A', 'C', 'G', 'T', 'T', 'T', 'C', 'G', 'A', 'T', 'C', 'G', 'A'] ++ ['$'])))) 0 = [] := by
  decide

/-- **C2 (amended)**: for the reference `"ACGTACGTTTCGATCGA"` and the
read `"ACGTTTC"`, the exact-search tier returns exactly `[4]` (and the
full pipeline reports that exact record with `mismatches = 0`,
`score = 7`, CIGAR `"7M"`), while the tolerant seed-and-extend tier with
`K = 0` returns the empty list, because its seed length
`max 8 (7 / 1) = 8` exceeds the read length 7. -/
theorem C2_end_to_end_example :
    locate_pattern ['A', 'C', 'G', 'T', 'T', 'T', 'C']
        (build_suffix_array (['A', 'C', 'G', 'T', 'A', 'C', 'G', 'T', 'T', 'T', 'C', 'G', 'A', 'T', 'C', 'G', 'A'] ++ ['$']))
        (build_count_table (build_BWT (['A', 'C', 'G', 'T', 'A', 'C', 'G', 'T', 'T', 'T', 'C', 'G', 'A', 'T', 'C', 'G', 'A'] ++ ['$'])
          (build_suffix_array (['A', 'C', 'G', 'T', 'A', 'C', 'G', 'T', 'T', 'T', 'C', 'G', 'A', 'T', 'C', 'G', 'A'] ++ ['$']))))
        (build_occurrence_table (build_BWT (['A', 'C', 'G', 'T', 'A', 'C', 'G', 'T', 'T', 'T', 'C', 'G', 'A', 'T', 'C', 'G', 'A'] ++ ['$'])
          (build_suffix_array (['A', 'C', 'G', 'T', 'A', 'C', 'G', 'T', 'T', 'T', 'C', 'G', 'A', 'T', 'C', 'G', 'A'] ++ ['$'])))) = [4] ∧
      hisat_align ['A', 'C', 'G', 'T', 'T', 'T', 'C'] ['A', 'C', 'G', 'T', 'A', 'C', 'G', 'T', 'T', 'T', 'C', 'G', 'A', 'T', 'C', 'G', 'A'] 0 =
        [{ position := 4, cigar := "7M", mismatches := 0, score := 7,
           spliced := false }] ∧
      seed_and_extend ['A', 'C', 'G', 'T', 'T', 'T', 'C'] ['A', 'C', 'G', 'T', 'A', 'C', 'G', 'T', 'T', 'T', 'C', 'G', 'A', 'T', 'C', 'G', 'A']
        (build_suffix_array (['A', 'C', 'G', 'T', 'A', 'C', 'G', 'T', 'T', 'T', 'C', 'G', 'A', 'T', 'C', 'G', 'A'] ++ ['$']))
        (build_count_table (build_BWT (['A', 'C', 'G', 'T', 'A', 'C', 'G', 'T', 'T', 'T', 'C', 'G', 'A', 'T', 'C', 'G', 'A'] ++ ['$'])
          (build_suffix_array (['A', 'C', 'G', 'T', 'A', 'C', 'G', 'T', 'T', 'T', 'C', 'G', 'A', 'T', 'C', 'G', 'A'] ++ ['$']))))
        (build_occurrence_table (build_BWT (['A', 'C', 'G', 'T', 'A', 'C', 'G', 'T', 'T', 'T', 'C', 'G', 'A', 'T', 'C', 'G', 'A'] ++ ['$'])
          (build_suffix_array (['A', 'C', 'G', 'T', 'A', 'C', 'G', 'T', 'T', 'T', 'C', 'G', 'A', 'T', 'C', 'G', 'A'] ++ ['$'])))) 0 = [] := by
  refine ⟨by decide, by decide, by decide⟩

/-! ### Properties of spliced-alignment records (claim C5) -/

/-- **C5**: every record emitted by the splice-aware matcher is flagged
`spliced = true`, carries `intron_start`/`intron_end` with an implied gap
length in `[50, 500000]`, has the canonical donor `"GT"` at
`[intron_start, intron_start + 2)` and acceptor `"AG"` at
`[intron_end - 2, intron_end)` in the reference, has
`intron_start = position + left_len` (the left hit position plus the left
segment length, with `left_len + right_len` covering the read), and a
CIGAR of the exact form `<left_len>M<gap_len>N<right_len>M`. -/
theorem C5_spliced_record_shape (read reference : List Char)
    (suffix_array : List Nat) (count_table : Char → Option Nat)
    (occ : Char → Nat → Nat) (rec : HisatRecord)
    (hmem : rec ∈ spliced_alignment read reference suffix_array count_table occ) :
    rec.spliced = true ∧ rec.mismatches = 0 ∧ rec.score = (read.length : Int) ∧
      ∃ istart iend : Nat, ∃ llen rlen : Nat, ∃ glen : Int,
        rec.intron_start = some istart ∧ rec.intron_end = some iend ∧
        glen = (iend : Int) - (istart : Int) ∧
        (50 : Int) ≤ glen ∧ glen ≤ (500000 : Int) ∧
        (reference.drop istart).take 2 = ['G', 'T'] ∧
        (reference.drop (iend - 2)).take 2 = ['A', 'G'] ∧
        (istart : Int) = rec.position + (llen : Int) ∧
        llen + rlen = read.length ∧
        rec.cigar = toString llen ++ "M" ++ toString glen ++ "N" ++
          toString rlen ++ "M" := by
  unfold spliced_alignment at hmem
  simp only [List.mem_flatMap, List.mem_filterMap] at hmem
  obtain ⟨split_position, hsplit, left_pos, hleft, right_pos, hright, hrec⟩ := hmem
  by_cases hbound : (50 : Int) ≤ (right_pos : Int) -
      ((left_pos + (read.take split_position).length : Nat) : Int) ∧
      (right_pos : Int) - ((left_pos + (read.take split_position).length : Nat) : Int)
        ≤ (500000 : Int)
  swap
  · rw [if_neg hbound] at hrec
    exact absurd hrec (Option.noConfusion)
  rw [if_pos hbound] at hrec
  by_cases hsite : check_canonical_splice_site reference
      (left_pos + (read.take split_position).length) right_pos = true
  swap
  · rw [if_neg hsite] at hrec
    exact absurd hrec (Option.noConfusion)
  rw [if_pos hsite] at hrec
  have hrec' := Option.some_inj.1 hrec
  subst hrec'
  have hsplit_mem := List.mem_range'.1 hsplit
  obtain ⟨i, hi, hieq⟩ := hsplit_mem
  have hsplitlen : split_position ≤ read.length := by omega
  have htake : (read.take split_position).length = split_position := by
    rw [List.length_take]
    omega
  unfold check_canonical_splice_site at hsite
  by_cases hguard : reference.length < left_pos + (read.take split_position).length + 2
      ∨ right_pos < 2
  · rw [if_pos hguard] at hsite
    exact absurd hsite Bool.false_ne_true
  rw [if_neg hguard, Bool.and_eq_true, decide_eq_true_iff, decide_eq_true_iff] at hsite
  refine ⟨rfl, rfl, rfl,
    left_pos + (read.take split_position).length, right_pos,
    (read.take split_position).length, (read.drop split_position).length,
    (right_pos : Int) - ((left_pos + (read.take split_position).length : Nat) : Int),
    rfl, rfl, by push_cast; ring, hbound.1, hbound.2, hsite.1, hsite.2, ?_, ?_, rfl⟩
  · push_cast
    ring
  · rw [htake, List.length_drop]
    omega

/-- Witness for C5: a concrete reference with an 8-character left anchor,
a 50-character canonical `GT..AG` gap, and a 9-character right anchor, on
which the matcher emits exactly one spliced record. -/
theorem C5_spliced_record_shape_witness :
    let reference := ['A', 'C', 'A', 'C', 'A', 'C', 'A', 'C'] ++ ['G', 'T'] ++
      List.replicate 46 'T' ++ ['A', 'G'] ++
      ['C', 'C', 'C', 'C', 'C', 'C', 'C', 'C', 'C']
    let read := ['A', 'C', 'A', 'C', 'A', 'C', 'A', 'C'] ++
      ['C', 'C', 'C', 'C', 'C', 'C', 'C', 'C', 'C']
    let rec0 : HisatRecord :=
      { position := 0, cigar := "8M50N9M", mismatches := 0, score := 17,
        spliced := true, intron_start := some 8, intron_end := some 58 }
    rec0.spliced = true ∧ rec0.mismatches = 0 ∧ rec0.score = (read.length : Int) ∧
      ∃ istart iend : Nat, ∃ llen rlen : Nat, ∃ glen : Int,
        rec0.intron_start = some istart ∧ rec0.intron_end = some iend ∧
        glen = (iend : Int) - (istart : Int) ∧
        (50 : Int) ≤ glen ∧ glen ≤ (500000 : Int) ∧
        (reference.drop istart).take 2 = ['G', 'T'] ∧
        (reference.drop (iend - 2)).take 2 = ['A', 'G'] ∧
        (istart : Int) = rec0.position + (llen : Int) ∧
        llen + rlen = read.length ∧
        rec0.cigar = toString llen ++ "M" ++ toString glen ++ "N" ++
          toString rlen ++ "M" := by
  intro reference read rec0
  refine C5_spliced_record_shape read reference
    (build_suffix_array (reference ++ ['$']))
    (build_count_table (build_BWT (reference ++ ['$'])
      (build_suffix_array (reference ++ ['$']))))
    (build_occurrence_table (build_BWT (reference ++ ['$'])
      (build_suffix_array (reference ++ ['$']))))
    rec0 (by decide)

/-! ### Smith-Waterman cell recurrence and tie-break order (claim C6) -/

theorem headD_eq_getD (l : List α) (d : α) : l.headD d = l.getD 0 d := by
  cases l <;> rfl

/-- Specification of one Smith-Waterman row fill: lengths, and the cell
recurrence with the recorded choice being the first alternative attaining
the cell value in the fixed order diagonal (code 1), gap from above
(code 3), gap from the left (code 2), reset (code 0), exactly as in the
source's `if`/`elif` chain. -/
theorem sw_fill_row_spec (ms mp ge : Int) (qc : Char) :
    ∀ (ts : List Char) (prev : List Int) (last : Int),
      prev.length = ts.length + 1 →
      (sw_fill_row ms mp ge qc ts prev last).1.length = ts.length ∧
      (sw_fill_row ms mp ge qc ts prev last).2.length = ts.length ∧
      ∀ j, j < ts.length →
        ((sw_fill_row ms mp ge qc ts prev last).1.getD j 0 =
          max 0 (max (prev.getD j 0 + (if qc = ts.getD j 'x' then ms else mp))
            (max (prev.getD (j + 1) 0 + ge)
              ((if j = 0 then last
                else (sw_fill_row ms mp ge qc ts prev last).1.getD (j - 1) 0) + ge)))) ∧
        ((sw_fill_row ms mp ge qc ts prev last).2.getD j 0 =
          (if (sw_fill_row ms mp ge qc ts prev last).1.getD j 0 =
              prev.getD j 0 + (if qc = ts.getD j 'x' then ms else mp) then 1
           else if (sw_fill_row ms mp ge qc ts prev last).1.getD j 0 =
              prev.getD (j + 1) 0 + ge then 3
           else if (sw_fill_row ms mp ge qc ts prev last).1.getD j 0 =
              (if j = 0 then last
                else (sw_fill_row ms mp ge qc ts prev last).1.getD (j - 1) 0) + ge
             then 2
           else 0))
  | [], prev, last, hlen => ⟨rfl, rfl, fun j hj => absurd hj (Nat.not_lt_zero j)⟩
  | t_c :: ts, [], last, hlen => by simp at hlen
  | t_c :: ts, p0 :: prest, last, hlen => by
    have hlen' : prest.length = ts.length + 1 := by
      simpa using hlen
    obtain ⟨ih1, ih2, ih3⟩ := sw_fill_row_spec ms mp ge qc ts prest
      (max 0 (max (p0 + (if qc = t_c then ms else mp))
        (max (prest.headD 0 + ge) (last + ge)))) hlen'
    refine ⟨?_, ?_, ?_⟩
    · simp only [sw_fill_row, List.length_cons, ih1]
    · simp only [sw_fill_row, List.length_cons, ih2]
    · intro j hj
      cases j with
      | zero =>
        simp only [sw_fill_row, List.getD_cons_zero, List.getD_cons_succ,
          headD_eq_getD, if_pos rfl]
        exact ⟨rfl, rfl⟩
      | succ j =>
        have hj' : j < ts.length := by
          simp only [List.length_cons] at hj
          omega
        obtain ⟨ihv, ihtb⟩ := ih3 j hj'
        simp only [sw_fill_row, List.getD_cons_succ, Nat.succ_ne_zero, if_neg,
          Nat.add_sub_cancel]
        constructor
        · rw [ihv]
          cases j <;> rfl
        · rw [ihtb, ihv]
          cases j <;> rfl
/-- Matrix-level specification of the Smith-Waterman fill: every row has
the right length and every interior cell satisfies the local-alignment
recurrence, with the traceback entry given by the source's fixed
tie-break order. -/
theorem sw_fill_spec (ms mp ge : Int) (target : List Char) :
    ∀ (qs : List Char) (prev : List Int), prev.length = target.length + 1 →
      (sw_fill ms mp ge target qs prev).1.length = qs.length ∧
      (∀ i, i < qs.length →
        ((sw_fill ms mp ge target qs prev).1.getD i []).length = target.length + 1) ∧
      ∀ i, i < qs.length → ∀ col, col < target.length →
        (((sw_fill ms mp ge target qs prev).1.getD i []).getD (col + 1) 0 =
          max 0 (max ((((if i = 0 then prev
                else (sw_fill ms mp ge target qs prev).1.getD (i - 1) [])).getD col 0) +
              (if qs.getD i 'x' = target.getD col 'x' then ms else mp))
            (max ((((if i = 0 then prev
                else (sw_fill ms mp ge target qs prev).1.getD (i - 1) [])).getD (col + 1) 0) + ge)
              ((((sw_fill ms mp ge target qs prev).1.getD i []).getD col 0) + ge)))) ∧
        (((sw_fill ms mp ge target qs prev).2.getD i []).getD (col + 1) 0 =
          (if ((sw_fill ms mp ge target qs prev).1.getD i []).getD (col + 1) 0 =
              (((if i = 0 then prev
                else (sw_fill ms mp ge target qs prev).1.getD (i - 1) [])).getD col 0) +
              (if qs.getD i 'x' = target.getD col 'x' then ms else mp) then 1
           else if ((sw_fill ms mp ge target qs prev).1.getD i []).getD (col + 1) 0 =
              (((if i = 0 then prev
                else (sw_fill ms mp ge target qs prev).1.getD (i - 1) [])).getD (col + 1) 0) + ge
             then 3
           else if ((sw_fill ms mp ge target qs prev).1.getD i []).getD (col + 1) 0 =
              (((sw_fill ms mp ge target qs prev).1.getD i []).getD col 0) + ge then 2
           else 0))
  | [], prev, hlen => ⟨rfl, fun i hi => absurd hi (Nat.not_lt_zero i), 
      fun i hi => absurd hi (Nat.not_lt_zero i)⟩
  | q_c :: qs, prev, hlen => by
    obtain ⟨rh1, rh2, rh3⟩ := sw_fill_row_spec ms mp ge q_c target prev 0 hlen
    have hscore_len : ((0 : Int) :: (sw_fill_row ms mp ge q_c target prev 0).1).length =
        target.length + 1 := by
      rw [List.length_cons, rh1]
    obtain ⟨ih1, ih2, ih3⟩ := sw_fill_spec ms mp ge target qs
      ((0 : Int) :: (sw_fill_row ms mp ge q_c target prev 0).1) hscore_len
    refine ⟨?_, ?_, ?_⟩
    · simp only [sw_fill, List.length_cons, ih1]
    · intro i hi
      cases i with
      | zero =>
        simp only [sw_fill, List.getD_cons_zero]
        exact hscore_len
      | succ i =>
        simp only [sw_fill, List.getD_cons_succ]
        exact ih2 i (by simpa using hi)
    · intro i hi col hcol
      cases i with
      | zero =>
        obtain ⟨rv, rtb⟩ := rh3 col hcol
        simp only [sw_fill, List.getD_cons_zero, List.getD_cons_succ, if_pos rfl]
        constructor
        · rw [rv]
          cases col <;> rfl
        · rw [rtb]
          cases col <;> rfl
      | succ i =>
        have hi' : i < qs.length := by simpa using hi
        obtain ⟨iv, itb⟩ := ih3 i hi' col hcol
        simp only [sw_fill, List.getD_cons_succ, Nat.succ_ne_zero, if_neg,
          Nat.add_sub_cancel]
        constructor
        · rw [iv]
          cases i <;> rfl
        · rw [itb]
          cases i <;> rfl
/-- **C6**: in the local alignment engine, every interior cell value of
the score matrix equals `max(0, diagonal + match-or-mismatch, up + gap,
left + gap)`, and the recorded traceback choice is the first alternative
attaining that value in the fixed order diagonal (code 1), then up — gap
from above (code 3), then left — gap from the left (code 2), then
reset-to-zero (code 0); the traceback walk `sw_walk` follows exactly
these recorded codes, so the emitted edit script is determined by this
order. -/
theorem C6_sw_recurrence (query target : List Char) (ms mp ge : Int) (row col : Nat)
    (hrow : row < query.length) (hcol : col < target.length) :
    (((sw_matrices query target ms mp ge).1.getD (row + 1) []).getD (col + 1) 0 =
      max 0 (max (((sw_matrices query target ms mp ge).1.getD row []).getD col 0 +
          (if query.getD row 'x' = target.getD col 'x' then ms else mp))
        (max (((sw_matrices query target ms mp ge).1.getD row []).getD (col + 1) 0 + ge)
          (((sw_matrices query target ms mp ge).1.getD (row + 1) []).getD col 0 + ge)))) ∧
    (((sw_matrices query target ms mp ge).2.getD (row + 1) []).getD (col + 1) 0 =
      (if ((sw_matrices query target ms mp ge).1.getD (row + 1) []).getD (col + 1) 0 =
          ((sw_matrices query target ms mp ge).1.getD row []).getD col 0 +
            (if query.getD row 'x' = target.getD col 'x' then ms else mp) then 1
       else if ((sw_matrices query target ms mp ge).1.getD (row + 1) []).getD (col + 1) 0 =
          ((sw_matrices query target ms mp ge).1.getD row []).getD (col + 1) 0 + ge then 3
       else if ((sw_matrices query target ms mp ge).1.getD (row + 1) []).getD (col + 1) 0 =
          ((sw_matrices query target ms mp ge).1.getD (row + 1) []).getD col 0 + ge then 2
       else 0)) := by
  obtain ⟨h1, h2, h3⟩ := sw_fill_spec ms mp ge target query
    (List.replicate (target.length + 1) 0) (by rw [List.length_replicate])
  obtain ⟨hv, htb⟩ := h3 row hrow col hcol
  simp only [sw_matrices, List.getD_cons_succ]
  constructor
  · rw [hv]
    cases row <;> rfl
  · rw [htb]
    cases row <;> rfl
/-- Witness for C6 at `query = "AC"`, `target = "AG"` with the default
scores (match 2, mismatch -4, gap -1), at cell `(1, 1)`. -/
theorem C6_sw_recurrence_witness :
    (((sw_matrices ['A', 'C'] ['A', 'G'] 2 (-4) (-1)).1.getD 1 []).getD 1 0 =
      max 0 (max (((sw_matrices ['A', 'C'] ['A', 'G'] 2 (-4) (-1)).1.getD 0 []).getD 0 0 +
          (if (['A', 'C'] : List Char).getD 0 'x' = (['A', 'G'] : List Char).getD 0 'x'
            then 2 else -4))
        (max (((sw_matrices ['A', 'C'] ['A', 'G'] 2 (-4) (-1)).1.getD 0 []).getD 1 0 + (-1))
          (((sw_matrices ['A', 'C'] ['A', 'G'] 2 (-4) (-1)).1.getD 1 []).getD 0 0 + (-1))))) ∧
    (((sw_matrices ['A', 'C'] ['A', 'G'] 2 (-4) (-1)).2.getD 1 []).getD 1 0 =
      (if ((sw_matrices ['A', 'C'] ['A', 'G'] 2 (-4) (-1)).1.getD 1 []).getD 1 0 =
          ((sw_matrices ['A', 'C'] ['A', 'G'] 2 (-4) (-1)).1.getD 0 []).getD 0 0 +
            (if (['A', 'C'] : List Char).getD 0 'x' = (['A', 'G'] : List Char).getD 0 'x'
              then 2 else -4) then 1
       else if ((sw_matrices ['A', 'C'] ['A', 'G'] 2 (-4) (-1)).1.getD 1 []).getD 1 0 =
          ((sw_matrices ['A', 'C'] ['A', 'G'] 2 (-4) (-1)).1.getD 0 []).getD 1 0 + (-1) then 3
       else if ((sw_matrices ['A', 'C'] ['A', 'G'] 2 (-4) (-1)).1.getD 1 []).getD 1 0 =
          ((sw_matrices ['A', 'C'] ['A', 'G'] 2 (-4) (-1)).1.getD 1 []).getD 0 0 + (-1) then 2
       else 0)) :=
  C6_sw_recurrence ['A', 'C'] ['A', 'G'] 2 (-4) (-1) 0 0 (by decide) (by decide)

/-! ### MAPQ assignment in the bowtie pipeline (claim C4) -/

theorem enum_map_mapq_getD (sorted : List BowtieRecord) (ridx : Nat)
    (hr : ridx < sorted.length) :
    ((sorted.enum.map (fun (p : Nat × BowtieRecord) =>
        (p.2, if p.1 = 0 then min 60 p.2.score
          else max 0 (60 - 10 * (p.1 : Int))))).getD ridx (⟨0, "", 0⟩, 0)) =
      (sorted.getD ridx ⟨0, "", 0⟩,
        if ridx = 0 then min 60 (sorted.getD ridx ⟨0, "", 0⟩).score
        else max 0 (60 - 10 * (ridx : Int))) := by
  have hlen : ridx < (sorted.enum.map (fun (p : Nat × BowtieRecord) =>
      (p.2, if p.1 = 0 then min 60 p.2.score
        else max 0 (60 - 10 * (p.1 : Int))))).length := by
    rw [List.length_map, List.enum_length]
    exact hr
  rw [List.getD_eq_getElem _ _ hlen, List.getElem_map, List.getElem_enum,
    List.getD_eq_getElem _ _ hr]

theorem mapq_assign_spec (sorted : List BowtieRecord) (ridx : Nat)
    (hr : ridx < (sorted.enum.map (fun (p : Nat × BowtieRecord) =>
        (p.2, if p.1 = 0 then min 60 p.2.score
          else max 0 (60 - 10 * (p.1 : Int))))).length) :
    ((sorted.enum.map (fun (p : Nat × BowtieRecord) =>
        (p.2, if p.1 = 0 then min 60 p.2.score
          else max 0 (60 - 10 * (p.1 : Int))))).getD ridx (⟨0, "", 0⟩, 0)).2 =
      (if ridx = 0 then
        min 60 (((sorted.enum.map (fun (p : Nat × BowtieRecord) =>
          (p.2, if p.1 = 0 then min 60 p.2.score
            else max 0 (60 - 10 * (p.1 : Int))))).getD 0 (⟨0, "", 0⟩, 0)).1.score)
       else max 0 (60 - 10 * (ridx : Int))) ∧
    ((50 : Int) ≤ (((sorted.enum.map (fun (p : Nat × BowtieRecord) =>
        (p.2, if p.1 = 0 then min 60 p.2.score
          else max 0 (60 - 10 * (p.1 : Int))))).getD 0 (⟨0, "", 0⟩, 0)).1.score) →
      (((sorted.enum.map (fun (p : Nat × BowtieRecord) =>
        (p.2, if p.1 = 0 then min 60 p.2.score
          else max 0 (60 - 10 * (p.1 : Int))))).getD ridx (⟨0, "", 0⟩, 0)).2 ≤
        ((sorted.enum.map (fun (p : Nat × BowtieRecord) =>
          (p.2, if p.1 = 0 then min 60 p.2.score
            else max 0 (60 - 10 * (p.1 : Int))))).getD 0 (⟨0, "", 0⟩, 0)).2)) := by
  have hr' : ridx < sorted.length := by
    rw [List.length_map, List.enum_length] at hr
    exact hr
  have h0 : 0 < sorted.length := by omega
  rw [enum_map_mapq_getD sorted ridx hr', enum_map_mapq_getD sorted 0 h0]
  constructor
  · by_cases h : ridx = 0
    · subst h
      rfl
    · rw [if_neg h, if_neg h]
  · intro h50
    have h50b : (50 : Int) ≤ (sorted.getD 0 ⟨0, "", 0⟩).score := h50
    by_cases h : ridx = 0
    · subst h
      exact le_refl _
    · rw [if_neg h]
      show max 0 (60 - 10 * (ridx : Int)) ≤
        (if (0 : Nat) = 0 then min 60 (sorted.getD 0 ⟨0, "", 0⟩).score
         else max 0 (60 - 10 * ((0 : Nat) : Int)))
      rw [if_pos rfl]
      have hr1 : (1 : Int) ≤ (ridx : Int) := by
        have h1 : 1 ≤ ridx := by omega
        exact_mod_cast h1
      omega

set_option maxRecDepth 100000 in
/-- **C4 counterexample**: for the read `"ACGTA"` against the reference
`"ACGTATTTTTACGTATTTTT"` with seed length 4 and interval 15, the pipeline
returns two records, both with score 10; rank 0 receives
MAPQ `min(60, 10) = 10` while rank 1 receives `max(0, 60 - 10) = 50`, so
the record at rank 0 does *not* have the highest MAPQ among the returned
records. -/
theorem C4_counterexample :
    ((bowtie2_align ['A', 'C', 'G', 'T', 'A'] ['A', 'C', 'G', 'T', 'A', 'T', 'T', 'T', 'T', 'T', 'A', 'C', 'G', 'T', 'A', 'T', 'T', 'T', 'T', 'T'] 4 15).map Prod.snd) = [10, 50] ∧
      ((bowtie2_align ['A', 'C', 'G', 'T', 'A'] ['A', 'C', 'G', 'T', 'A', 'T', 'T', 'T', 'T', 'T', 'A', 'C', 'G', 'T', 'A', 'T', 'T', 'T', 'T', 'T'] 4 15).map Prod.snd).getD 0 0 <
        ((bowtie2_align ['A', 'C', 'G', 'T', 'A'] ['A', 'C', 'G', 'T', 'A', 'T', 'T', 'T', 'T', 'T', 'A', 'C', 'G', 'T', 'A', 'T', 'T', 'T', 'T', 'T'] 4 15).map Prod.snd).getD 1 0 := by
  refine ⟨by decide, by decide⟩

/-- **C4 (amended)**: in the seed-cluster-then-extend pipeline, after the
kept records are sorted by descending score, the record at rank 0 is
assigned MAPQ `min(60, score)` and every record at rank `r > 0` is
assigned MAPQ `max(0, 60 - 10 r)`; the record at rank 0 has the highest
MAPQ among the returned records whenever its score is at least 50 (but
not in general). -/
theorem C4_mapq_assignment (read reference : List Char) (L I ridx : Nat)
    (hr : ridx < (bowtie2_align read reference L I).length) :
    ((bowtie2_align read reference L I).getD ridx (⟨0, "", 0⟩, 0)).2 =
      (if ridx = 0 then
        min 60 ((bowtie2_align read reference L I).getD 0 (⟨0, "", 0⟩, 0)).1.score
       else max 0 (60 - 10 * (ridx : Int))) ∧
    ((50 : Int) ≤ ((bowtie2_align read reference L I).getD 0 (⟨0, "", 0⟩, 0)).1.score →
      ((bowtie2_align read reference L I).getD ridx (⟨0, "", 0⟩, 0)).2 ≤
        ((bowtie2_align read reference L I).getD 0 (⟨0, "", 0⟩, 0)).2) :=
  mapq_assign_spec _ ridx hr

set_option maxRecDepth 100000 in
/-- Witness for the amended C4 at the counterexample input, rank 1. -/
theorem C4_mapq_assignment_witness :
    ((bowtie2_align ['A', 'C', 'G', 'T', 'A'] ['A', 'C', 'G', 'T', 'A', 'T', 'T', 'T', 'T', 'T', 'A', 'C', 'G', 'T', 'A', 'T', 'T', 'T', 'T', 'T'] 4 15).getD 1 (⟨0, "", 0⟩, 0)).2 =
      (if (1 : Nat) = 0 then
        min 60 ((bowtie2_align ['A', 'C', 'G', 'T', 'A'] ['A', 'C', 'G', 'T', 'A', 'T', 'T', 'T', 'T', 'T', 'A', 'C', 'G', 'T', 'A', 'T', 'T', 'T', 'T', 'T'] 4 15).getD 0 (⟨0, "", 0⟩, 0)).1.score
       else max 0 (60 - 10 * ((1 : Nat) : Int))) ∧
    ((50 : Int) ≤ ((bowtie2_align ['A', 'C', 'G', 'T', 'A'] ['A', 'C', 'G', 'T', 'A', 'T', 'T', 'T', 'T', 'T', 'A', 'C', 'G', 'T', 'A', 'T', 'T', 'T', 'T', 'T'] 4 15).getD 0 (⟨0, "", 0⟩, 0)).1.score →
      ((bowtie2_align ['A', 'C', 'G', 'T', 'A'] ['A', 'C', 'G', 'T', 'A', 'T', 'T', 'T', 'T', 'T', 'A', 'C', 'G', 'T', 'A', 'T', 'T', 'T', 'T', 'T'] 4 15).getD 1 (⟨0, "", 0⟩, 0)).2 ≤
        ((bowtie2_align ['A', 'C', 'G', 'T', 'A'] ['A', 'C', 'G', 'T', 'A', 'T', 'T', 'T', 'T', 'T', 'A', 'C', 'G', 'T', 'A', 'T', 'T', 'T', 'T', 'T'] 4 15).getD 0 (⟨0, "", 0⟩, 0)).2) :=
  C4_mapq_assignment ['A', 'C', 'G', 'T', 'A'] ['A', 'C', 'G', 'T', 'A', 'T', 'T', 'T', 'T', 'T', 'A', 'C', 'G', 'T', 'A', 'T', 'T', 'T', 'T', 'T'] 4 15 1 (by decide)

/-! ### Tolerant seed-and-extend finds bounded-mismatch alignments (claim C3) -/

theorem getD_take_of_lt (l : List α) (n i : Nat) (d : α) (h : i < n)
    (h2 : i < l.length) : (l.take n).getD i d = l.getD i d := by
  rw [List.getD_eq_getElem _ _ (by rw [List.length_take]; omega),
    List.getD_eq_getElem _ _ h2]
  exact List.getElem_take l

theorem getD_drop_of_lt (l : List α) (n i : Nat) (d : α) (h : n + i < l.length) :
    (l.drop n).getD i d = l.getD (n + i) d := by
  rw [List.getD_eq_getElem _ _ (by rw [List.length_drop]; omega),
    List.getD_eq_getElem _ _ h]
  exact List.getElem_drop l

/-- The mismatch count of a read against the reference window at `p`, as
the cardinality of the set of mismatching offsets. -/
theorem mismatch_card (read ref : List Char) (p : Nat)
    (hlen : p + read.length ≤ ref.length) :
    count_mismatches read ((ref.drop p).take read.length) =
      ((Finset.range read.length).filter
        (fun i => ¬ read.getD i 'x' = ref.getD (p + i) 'x')).card := by
  unfold count_mismatches
  have hseglen : ((ref.drop p).take read.length).length = read.length := by
    rw [List.length_take, List.length_drop]
    omega
  rw [hseglen, min_self]
  have hcongr : ∀ i ∈ List.range read.length,
      (decide (¬ read.getD i 'x' = ((ref.drop p).take read.length).getD i 'x')) =
      (decide (¬ read.getD i 'x' = ref.getD (p + i) 'x')) := by
    intro i hi
    have hi' := List.mem_range.1 hi
    rw [getD_take_of_lt _ _ _ _ hi' (by rw [List.length_drop]; omega),
      getD_drop_of_lt _ _ _ _ (by omega)]
  rw [List.filter_congr hcongr]
  rfl

/-- Pigeonhole: `m + 1` disjoint blocks of length `L` cannot each contain
an element of a set of `m` positions. -/
theorem clean_block_exists (L m : Nat) (hL : 0 < L) (D : Finset Nat)
    (hcard : D.card = m)
    (hall : ∀ j, j < m + 1 → ∃ i ∈ D, j * L ≤ i ∧ i < j * L + L) : False := by
  classical
  choose f hfD hflo hfhi using hall
  let g : Nat → Nat := fun j => if h : j < m + 1 then f j h else 0
  have hmaps : ∀ j ∈ Finset.range (m + 1), g j ∈ D := by
    intro j hj
    have hj' := Finset.mem_range.1 hj
    show (if h : j < m + 1 then f j h else 0) ∈ D
    rw [dif_pos hj']
    exact hfD j hj'
  have hlt : D.card < (Finset.range (m + 1)).card := by
    rw [hcard, Finset.card_range]
    omega
  obtain ⟨x, hx, y, hy, hxy, heq⟩ :=
    Finset.exists_ne_map_eq_of_card_lt_of_maps_to hlt hmaps
  have hx' := Finset.mem_range.1 hx
  have hy' := Finset.mem_range.1 hy
  have hgx : g x = f x hx' := dif_pos hx'
  have hgy : g y = f y hy' := dif_pos hy'
  have hdx : (f x hx') / L = x :=
    Nat.div_eq_of_lt_le (hflo x hx') (by
      have := hfhi x hx'
      calc f x hx' < x * L + L := this
        _ = (x + 1) * L := by ring)
  have hdy : (f y hy') / L = y :=
    Nat.div_eq_of_lt_le (hflo y hy') (by
      have := hfhi y hy'
      calc f y hy' < y * L + L := this
        _ = (y + 1) * L := by ring)
  apply hxy
  rw [← hdx, ← hdy, ← hgx, ← hgy, heq]

/-- Existence of a mismatch-free seed block when the pigeonhole bound
holds. -/
theorem exists_clean_offset (read ref : List Char) (p m K : Nat)
    (hlen : p + read.length ≤ ref.length)
    (hm : count_mismatches read ((ref.drop p).take read.length) = m)
    (hpigeon : (m + 1) * max 8 (read.length / (K + 1)) ≤ read.length) :
    ∃ j, j ≤ m ∧
      ∀ idx, idx < max 8 (read.length / (K + 1)) →
        read.getD (j * max 8 (read.length / (K + 1)) + idx) 'x' =
          ref.getD (p + (j * max 8 (read.length / (K + 1)) + idx)) 'x' := by
  by_contra hno
  push_neg at hno
  refine clean_block_exists (max 8 (read.length / (K + 1))) m
    (lt_of_lt_of_le (by norm_num) (le_max_left 8 (read.length / (K + 1))))
    ((Finset.range read.length).filter
      (fun i => ¬ read.getD i 'x' = ref.getD (p + i) 'x'))
    ((mismatch_card read ref p hlen).symm.trans hm) ?_
  intro j hj
  obtain ⟨idx, hidx, hne⟩ := hno j (by omega)
  have hin : j * max 8 (read.length / (K + 1)) + idx < read.length := by
    have h1 : j * max 8 (read.length / (K + 1)) + idx <
        (j + 1) * max 8 (read.length / (K + 1)) := by
      have : (j + 1) * max 8 (read.length / (K + 1)) =
          j * max 8 (read.length / (K + 1)) + max 8 (read.length / (K + 1)) := by ring
      omega
    have h2 : (j + 1) * max 8 (read.length / (K + 1)) ≤
        (m + 1) * max 8 (read.length / (K + 1)) :=
      Nat.mul_le_mul_right _ (by omega)
    omega
  exact ⟨j * max 8 (read.length / (K + 1)) + idx,
    Finset.mem_filter.2 ⟨Finset.mem_range.2 hin, hne⟩, by omega, by omega⟩

/-- Elements already checked stay checked after one hit step. -/
theorem hit_checked_mono (read ref : List Char) (K o : Nat)
    (st : List Int × List HisatRecord) (h : Nat) (x : Int) (hx : x ∈ st.1) :
    x ∈ (seed_extend_hit read ref K o st h).1 := by
  simp only [seed_extend_hit]
  split_ifs <;> first | exact hx | exact List.mem_cons_of_mem _ hx

/-- Records already produced stay produced after one hit step. -/
theorem hit_alns_mono (read ref : List Char) (K o : Nat)
    (st : List Int × List HisatRecord) (h : Nat) (r : HisatRecord)
    (hr : r ∈ st.2) : r ∈ (seed_extend_hit read ref K o st h).2 := by
  simp only [seed_extend_hit]
  split_ifs <;> first | exact hr | exact List.mem_append_left _ hr

theorem foldl_preserve {σ : Type _} {α : Type _} (g : σ → α → σ) (P : σ → Prop)
    (hstep : ∀ s a, P s → P (g s a)) : ∀ (l : List α) (s : σ), P s → P (l.foldl g s)
  | [], _, hs => hs
  | a :: l, s, hs => foldl_preserve g P hstep l (g s a) (hstep s a hs)

/-- The key invariant of the verification loop: once the target start
position has been checked, the target record is among the alignments. -/
theorem hit_good (read ref : List Char) (K o p m : Nat)
    (hm : count_mismatches read ((ref.drop p).take read.length) = m)
    (hmK : m ≤ K) (st : List Int × List HisatRecord) (h : Nat)
    (hg : (p : Int) ∈ st.1 →
      ({ position := (p : Int), cigar := toString read.length ++ "M",
         mismatches := m, score := (read.length : Int) - (m : Int),
         spliced := false } : HisatRecord) ∈ st.2) :
    (p : Int) ∈ (seed_extend_hit read ref K o st h).1 →
      ({ position := (p : Int), cigar := toString read.length ++ "M",
         mismatches := m, score := (read.length : Int) - (m : Int),
         spliced := false } : HisatRecord) ∈ (seed_extend_hit read ref K o st h).2 := by
  simp only [seed_extend_hit]
  split_ifs with h1 h2 h3
  · exact hg
  · exact hg
  · intro hmem
    rcases List.mem_cons.1 hmem with heq | hmem'
    · have htn : ((h : Int) - (o : Int)).toNat = p := by
        rw [← heq, Int.toNat_natCast]
      refine List.mem_append_right _ (List.mem_singleton.2 ?_)
      rw [htn, hm, ← heq]
    · exact List.mem_append_left _ (hg hmem')
  · intro hmem
    rcases List.mem_cons.1 hmem with heq | hmem'
    · exfalso
      have htn : ((h : Int) - (o : Int)).toNat = p := by
        rw [← heq, Int.toNat_natCast]
      rw [htn, hm] at h3
      exact h3 hmK
    · exact hg hmem'

/-- Processing a hit list containing the target hit marks the target
start position as checked. -/
theorem inner_progress (read ref : List Char) (K o p : Nat)
    (hb2 : ¬ ((ref.length : Int) < (p : Int) + (read.length : Int))) :
    ∀ (hits : List Nat) (st : List Int × List HisatRecord), (p + o) ∈ hits →
      (p : Int) ∈ (hits.foldl (seed_extend_hit read ref K o) st).1
  | [], _, hmem => absurd hmem (List.not_mem_nil _)
  | h0 :: hits, st, hmem => by
    rcases List.mem_cons.1 hmem with heq | hmem'
    · refine foldl_preserve _ (fun s => (p : Int) ∈ s.1)
        (fun s a hs => hit_checked_mono read ref K o s a _ hs) hits _ ?_
      simp only [seed_extend_hit]
      have hrs : ((h0 : Int) - (o : Int)) = (p : Int) := by
        rw [← heq]
        push_cast
        ring
      rw [hrs]
      split_ifs with h1 h2
      · exfalso
        rcases h1 with h1 | h1
        · exact absurd h1 (by push_cast; omega)
        · exact hb2 h1
      · exact h2
      · exact List.mem_cons_self _ _
      · exact List.mem_cons_self _ _
    · exact inner_progress read ref K o p hb2 hits _ hmem'

/-- Assembling the outer fold: if some offset of the list leads the index
to the target hit, the target record is in the final alignment list. -/
theorem outer_fold_mem (read ref : List Char) (K L p m : Nat) (sa : List Nat)
    (cT : Char → Option Nat) (occF : Char → Nat → Nat)
    (hm : count_mismatches read ((ref.drop p).take read.length) = m)
    (hmK : m ≤ K)
    (hb2 : ¬ ((ref.length : Int) < (p : Int) + (read.length : Int)))
    (ostar : Nat)
    (hhit : (p + ostar) ∈ locate_pattern ((read.drop ostar).take L) sa cT occF) :
    ∀ (offsets : List Nat) (st : List Int × List HisatRecord),
      ((p : Int) ∈ st.1 →
        ({ position := (p : Int), cigar := toString read.length ++ "M",
           mismatches := m, score := (read.length : Int) - (m : Int),
           spliced := false } : HisatRecord) ∈ st.2) →
      ostar ∈ offsets →
      ({ position := (p : Int), cigar := toString read.length ++ "M",
         mismatches := m, score := (read.length : Int) - (m : Int),
         spliced := false } : HisatRecord) ∈
        (offsets.foldl (fun st o =>
          (locate_pattern ((read.drop o).take L) sa cT occF).foldl
            (seed_extend_hit read ref K o) st) st).2
  | [], _, _, hmem => absurd hmem (List.not_mem_nil _)
  | o0 :: offsets, st, hgood, hmem => by
    have hgood' : ∀ (o2 : Nat) (st2 : List Int × List HisatRecord),
        ((p : Int) ∈ st2.1 →
          ({ position := (p : Int), cigar := toString read.length ++ "M",
             mismatches := m, score := (read.length : Int) - (m : Int),
             spliced := false } : HisatRecord) ∈ st2.2) →
        ((p : Int) ∈ ((locate_pattern ((read.drop o2).take L) sa cT occF).foldl
            (seed_extend_hit read ref K o2) st2).1 →
          ({ position := (p : Int), cigar := toString read.length ++ "M",
             mismatches := m, score := (read.length : Int) - (m : Int),
             spliced := false } : HisatRecord) ∈
            ((locate_pattern ((read.drop o2).take L) sa cT occF).foldl
              (seed_extend_hit read ref K o2) st2).2) := by
      intro o2 st2 hg
      induction (locate_pattern ((read.drop o2).take L) sa cT occF) generalizing st2 with
      | nil => exact hg
      | cons a l ih =>
        exact ih (seed_extend_hit read ref K o2 st2 a)
          (hit_good read ref K o2 p m hm hmK st2 a hg)
    rcases List.mem_cons.1 hmem with heq | hmem'
    · subst heq
      have hstep : ∀ (s : List Int × List HisatRecord) (a : Nat),
          (({ position := (p : Int), cigar := toString read.length ++ "M", mismatches := m, score := (read.length : Int) - (m : Int), spliced := false } : HisatRecord) ∈ s.2) →
          (({ position := (p : Int), cigar := toString read.length ++ "M", mismatches := m, score := (read.length : Int) - (m : Int), spliced := false } : HisatRecord) ∈
            ((locate_pattern ((read.drop a).take L) sa cT occF).foldl
              (seed_extend_hit read ref K a) s).2) := by
        intro s a hs
        exact foldl_preserve _ _ (fun s2 a2 hs2 =>
          hit_alns_mono read ref K a s2 a2 _ hs2) _ s hs
      exact foldl_preserve _ _ hstep offsets _
        (hgood' ostar st hgood
          (inner_progress read ref K ostar p hb2 _ st hhit))
    · exact outer_fold_mem read ref K L p m sa cT occF hm hmK hb2 ostar hhit
        offsets _ (hgood' o0 st hgood) hmem'

/-- A mismatch-free seed block of the read occurs verbatim in the
`$`-terminated reference at the shifted position. -/
theorem seed_occursAt (read ref : List Char) (p j L : Nat)
    (hL : 0 < L) (hend : j * L + L ≤ read.length)
    (hlen : p + read.length ≤ ref.length)
    (hclean : ∀ idx, idx < L →
      read.getD (j * L + idx) 'x' = ref.getD (p + (j * L + idx)) 'x') :
    occursAt (ref ++ ['$']) ((read.drop (j * L)).take L) (p + j * L) := by
  have hseedlen : ((read.drop (j * L)).take L).length = L := by
    simp only [List.length_take, List.length_drop]
    omega
  constructor
  · simp only [List.length_append, List.length_singleton]
    omega
  · rw [List.prefix_iff_eq_take, hseedlen]
    refine List.ext_getElem ?_ ?_
    · rw [hseedlen]
      simp only [List.length_take, List.length_drop, List.length_append,
        List.length_singleton]
      omega
    · intro i h1 h2
      have hiL : i < L := by rw [hseedlen] at h1; exact h1
      rw [← List.getD_eq_getElem _ 'x' h1, ← List.getD_eq_getElem _ 'x' h2]
      rw [getD_take_of_lt _ _ _ _ hiL,
        getD_drop_of_lt _ _ _ _ (by omega : j * L + i < read.length),
        getD_take_of_lt _ _ _ _ hiL,
        getD_drop_of_lt _ _ _ _ (by
          simp only [List.length_append, List.length_singleton]
          omega : p + j * L + i < (ref ++ ['$']).length)]
      rw [List.getD_append _ _ _ _ (by omega : p + j * L + i < ref.length)]
      have := hclean i hiL
      rw [← Nat.add_assoc] at this
      exact this
      all_goals simp only [List.length_drop, List.length_take, List.length_append,
        List.length_singleton]
      all_goals omega

/-- **C3**: if the read agrees with the reference window starting at `p`
up to exactly `m ≤ K` substitutions, the window fits inside the
reference, the read avoids the sentinel `'$'`, and the pigeonhole bound
`(m + 1) * max 8 (|read| / (K + 1)) ≤ |read|` holds (so that some seed
block is mismatch-free), then `seed_and_extend` over the FM-index of the
`$`-terminated reference reports the record at position `p` with
`mismatches = m`, `score = |read| - m`, CIGAR `"|read|M"`, unspliced. -/
theorem C3_tolerant_matching (read ref : List Char) (p m K : Nat)
    (hdollar : '$' ∉ read)
    (hlen : p + read.length ≤ ref.length)
    (hm : count_mismatches read ((ref.drop p).take read.length) = m)
    (hmK : m ≤ K)
    (hpigeon : (m + 1) * max 8 (read.length / (K + 1)) ≤ read.length) :
    ({ position := (p : Int), cigar := toString read.length ++ "M",
       mismatches := m, score := (read.length : Int) - (m : Int),
       spliced := false } : HisatRecord) ∈
      seed_and_extend read ref (build_suffix_array (ref ++ ['$']))
        (build_count_table (build_BWT (ref ++ ['$'])
          (build_suffix_array (ref ++ ['$']))))
        (build_occurrence_table (build_BWT (ref ++ ['$'])
          (build_suffix_array (ref ++ ['$'])))) K := by
  obtain ⟨j, hjm, hclean⟩ := exists_clean_offset read ref p m K hlen hm hpigeon
  have hL8 : 8 ≤ max 8 (read.length / (K + 1)) := le_max_left _ _
  have hL : 0 < max 8 (read.length / (K + 1)) := by omega
  have hend : j * max 8 (read.length / (K + 1)) + max 8 (read.length / (K + 1)) ≤
      read.length := by
    have h1 : (j + 1) * max 8 (read.length / (K + 1)) ≤
        (m + 1) * max 8 (read.length / (K + 1)) :=
      Nat.mul_le_mul_right _ (by omega)
    have h2 : (j + 1) * max 8 (read.length / (K + 1)) =
        j * max 8 (read.length / (K + 1)) + max 8 (read.length / (K + 1)) := by ring
    omega
  have hocc := seed_occursAt read ref p j (max 8 (read.length / (K + 1)))
    hL hend hlen hclean
  have ht : (ref ++ ['$']) ≠ [] := by simp
  have hlast : (ref ++ ['$']).getD ((ref ++ ['$']).length - 1) 'x' = '$' := by
    have hlen1 : (ref ++ ['$']).length - 1 = ref.length := by
      simp only [List.length_append, List.length_singleton]
      omega
    rw [hlen1, List.getD_append_right _ _ _ _ (le_refl _)]
    simp
  have hpat : ∀ c ∈ (read.drop (j * max 8 (read.length / (K + 1)))).take
      (max 8 (read.length / (K + 1))),
      ¬ c = (ref ++ ['$']).getD ((ref ++ ['$']).length - 1) 'x' := by
    intro c hc hceq
    rw [hlast] at hceq
    subst hceq
    exact hdollar (List.drop_subset _ _ (List.take_subset _ _ hc))
  have hhit : (p + j * max 8 (read.length / (K + 1))) ∈
      locate_pattern ((read.drop (j * max 8 (read.length / (K + 1)))).take
        (max 8 (read.length / (K + 1))))
        (build_suffix_array (ref ++ ['$']))
        (build_count_table (build_BWT (ref ++ ['$'])
          (build_suffix_array (ref ++ ['$']))))
        (build_occurrence_table (build_BWT (ref ++ ['$'])
          (build_suffix_array (ref ++ ['$'])))) :=
    (locate_pattern_iff (ref ++ ['$']) ht _ hpat _).2 hocc
  have hb2 : ¬ ((ref.length : Int) < (p : Int) + (read.length : Int)) := by
    push_cast
    omega
  have hmemseed : j * max 8 (read.length / (K + 1)) ∈
      seed_starts read.length (max 8 (read.length / (K + 1))) := by
    unfold seed_starts
    have hLle : max 8 (read.length / (K + 1)) ≤ read.length := by omega
    rw [if_neg (by omega)]
    refine List.mem_map.2 ⟨j, List.mem_range.2 ?_, rfl⟩
    have hjdiv : j ≤ (read.length - max 8 (read.length / (K + 1))) /
        max 8 (read.length / (K + 1)) :=
      (Nat.le_div_iff_mul_le hL).2 (by omega)
    omega
  have hfinal := outer_fold_mem read ref K (max 8 (read.length / (K + 1))) p m
    (build_suffix_array (ref ++ ['$']))
    (build_count_table (build_BWT (ref ++ ['$'])
      (build_suffix_array (ref ++ ['$']))))
    (build_occurrence_table (build_BWT (ref ++ ['$'])
      (build_suffix_array (ref ++ ['$']))))
    hm hmK hb2 (j * max 8 (read.length / (K + 1))) hhit
    (seed_starts read.length (max 8 (read.length / (K + 1)))) ([], [])
    (fun hfalse => absurd hfalse (List.not_mem_nil _)) hmemseed
  simp only [seed_and_extend]
  exact hfinal

/-- **C3 counterexample** to the unconditional claim: the read `"ACGT"`
matches the reference `"ACGTACGTT"` exactly at position 0 (so `m = 0 ≤
K = 0`), yet `seed_and_extend` returns no record at all, because the
seed length `max 8 (4 / 1) = 8` exceeds the read length 4 and so no seed
is ever generated. -/
theorem C3_counterexample :
    count_mismatches ['A', 'C', 'G', 'T']
      (((['A', 'C', 'G', 'T', 'A', 'C', 'G', 'T', 'T'] : List Char).drop 0).take 4) = 0 ∧
    0 + (4 : Nat) ≤ 9 ∧
    seed_and_extend ['A', 'C', 'G', 'T'] ['A', 'C', 'G', 'T', 'A', 'C', 'G', 'T', 'T']
      (build_suffix_array (['A', 'C', 'G', 'T', 'A', 'C', 'G', 'T', 'T'] ++ ['$']))
      (build_count_table (build_BWT (['A', 'C', 'G', 'T', 'A', 'C', 'G', 'T', 'T'] ++ ['$'])
        (build_suffix_array (['A', 'C', 'G', 'T', 'A', 'C', 'G', 'T', 'T'] ++ ['$']))))
      (build_occurrence_table (build_BWT (['A', 'C', 'G', 'T', 'A', 'C', 'G', 'T', 'T'] ++ ['$'])
        (build_suffix_array (['A', 'C', 'G', 'T', 'A', 'C', 'G', 'T', 'T'] ++ ['$'])))) 0 = [] := by
  decide

/-- Witness for C3: the 16-base read `"ACGAACGTACGTACGT"` differs from
the first 16 bases of the 18-base reference `"ACGTACGTACGTACGTTT"` in
exactly one position, all hypotheses hold with `p = 0`, `m = 1`,
`K = 1`, and the tolerant record is reported. -/
theorem C3_tolerant_matching_witness :
    '$' ∉ (['A', 'C', 'G', 'A', 'A', 'C', 'G', 'T', 'A', 'C', 'G', 'T', 'A', 'C', 'G', 'T'] : List Char) ∧
    0 + (['A', 'C', 'G', 'A', 'A', 'C', 'G', 'T', 'A', 'C', 'G', 'T', 'A', 'C', 'G', 'T'] : List Char).length ≤
      (['A', 'C', 'G', 'T', 'A', 'C', 'G', 'T', 'A', 'C', 'G', 'T', 'A', 'C', 'G', 'T', 'T', 'T'] : List Char).length ∧
    count_mismatches ['A', 'C', 'G', 'A', 'A', 'C', 'G', 'T', 'A', 'C', 'G', 'T', 'A', 'C', 'G', 'T']
      (((['A', 'C', 'G', 'T', 'A', 'C', 'G', 'T', 'A', 'C', 'G', 'T', 'A', 'C', 'G', 'T', 'T', 'T'] : List Char).drop 0).take 16) = 1 ∧
    (1 : Nat) ≤ 1 ∧
    (1 + 1) * max 8 (16 / (1 + 1)) ≤ (16 : Nat) ∧
    ({ position := ((0 : Nat) : Int), cigar := toString (16 : Nat) ++ "M",
       mismatches := 1, score := ((16 : Nat) : Int) - ((1 : Nat) : Int),
       spliced := false } : HisatRecord) ∈
      seed_and_extend
        ['A', 'C', 'G', 'A', 'A', 'C', 'G', 'T', 'A', 'C', 'G', 'T', 'A', 'C', 'G', 'T']
        ['A', 'C', 'G', 'T', 'A', 'C', 'G', 'T', 'A', 'C', 'G', 'T', 'A', 'C', 'G', 'T', 'T', 'T']
        (build_suffix_array (['A', 'C', 'G', 'T', 'A', 'C', 'G', 'T', 'A', 'C', 'G', 'T', 'A', 'C', 'G', 'T', 'T', 'T'] ++ ['$']))
        (build_count_table (build_BWT (['A', 'C', 'G', 'T', 'A', 'C', 'G', 'T', 'A', 'C', 'G', 'T', 'A', 'C', 'G', 'T', 'T', 'T'] ++ ['$'])
          (build_suffix_array (['A', 'C', 'G', 'T', 'A', 'C', 'G', 'T', 'A', 'C', 'G', 'T', 'A', 'C', 'G', 'T', 'T', 'T'] ++ ['$']))))
        (build_occurrence_table (build_BWT (['A', 'C', 'G', 'T', 'A', 'C', 'G', 'T', 'A', 'C', 'G', 'T', 'A', 'C', 'G', 'T', 'T', 'T'] ++ ['$'])
          (build_suffix_array (['A', 'C', 'G', 'T', 'A', 'C', 'G', 'T', 'A', 'C', 'G', 'T', 'A', 'C', 'G', 'T', 'T', 'T'] ++ ['$'])))) 1 :=
  ⟨by decide, by decide, by decide, by decide, by decide,
    C3_tolerant_matching
      ['A', 'C', 'G', 'A', 'A', 'C', 'G', 'T', 'A', 'C', 'G', 'T', 'A', 'C', 'G', 'T']
      ['A', 'C', 'G', 'T', 'A', 'C', 'G', 'T', 'A', 'C', 'G', 'T', 'A', 'C', 'G', 'T', 'T', 'T']
      0 1 1 (by decide) (by decide) (by decide) (by decide) (by decide)⟩

/-- **C8**: for every list of edit-operation codes (non-digit
characters, as emitted by the traceback), expanding the compressed CIGAR
reproduces the list exactly; compressing the expansion of an
already-compressed CIGAR yields the same string (idempotence); and the
empty operation list compresses to the empty string. -/
theorem C8_compress_cigar_round_trip (ops : List Char)
    (h : ∀ c ∈ ops, c.isDigit = false) :
    expand_cigar (compress_cigar ops) = ops ∧
    compress_cigar (expand_cigar (compress_cigar ops)) = compress_cigar ops ∧
    compress_cigar [] = "" := by
  refine ⟨expand_compress_cigar ops h, ?_, rfl⟩
  rw [expand_compress_cigar ops h]

/-- Witness for C8 at the operation list `MMIDDDM`: the hypothesis (no
digit codes) holds and the compressed string `"2M1I3D1M"` round-trips. -/
theorem C8_compress_cigar_round_trip_witness :
    (∀ c ∈ (['M', 'M', 'I', 'D', 'D', 'D', 'M'] : List Char), c.isDigit = false) ∧
    (expand_cigar (compress_cigar ['M', 'M', 'I', 'D', 'D', 'D', 'M']) =
        ['M', 'M', 'I', 'D', 'D', 'D', 'M'] ∧
      compress_cigar (expand_cigar (compress_cigar ['M', 'M', 'I', 'D', 'D', 'D', 'M'])) =
        compress_cigar ['M', 'M', 'I', 'D', 'D', 'D', 'M'] ∧
      compress_cigar [] = "") :=
  ⟨by decide, C8_compress_cigar_round_trip ['M', 'M', 'I', 'D', 'D', 'D', 'M'] (by decide)⟩

end RnaAln
